import Mathlib

/-!
# Alchimia / sandfall: the world grid, its chunk scheduler and the update driver

A shallow embedding of `src/src/world.cpp` and `src/src/explosion.cpp`.

* `std::array<T, K>` is a total map from indices to `T`; only the indices below `K` are
  meaningful, and every access the code makes at an in-bounds position is below `K`.
* `glm::ivec2` is a pair of integers.  At every position that passes `world::valid` the operands
  of the index arithmetic are non-negative, so the conversions between `int`, the unsigned
  constants and `std::size_t` are the identity there.
* `assert(valid(pos))` is a failure: the operations that assert return an `Option`.
* `float` values (colour channels, explosion radii) are exact rationals; whatever depends on
  rounding or on the random source is a parameter of the model.
-/

namespace sand

/-! ## Data model -/

/-- Modelled from the spec: the compile-time constants `world_size`, `chunk_size` and
`num_chunks` of `world.hpp`, which is not among the sources. -/
structure config where
  world_size : Nat
  chunk_size : Nat
  num_chunks : Nat
deriving DecidableEq, Repr

/-- Modelled from the spec: the reference constants `N = 256`, `C = 16`, `M = N / C`. -/
def config.reference : config := ⟨256, 16, 16⟩

/-- The grid is partitioned into `num_chunks × num_chunks` chunks of edge `chunk_size`. -/
def config.well_formed (cfg : config) : Prop :=
  0 < cfg.chunk_size ∧ cfg.world_size = cfg.num_chunks * cfg.chunk_size

instance (cfg : config) : Decidable cfg.well_formed := by
  unfold config.well_formed; infer_instance

/-- The `glm::ivec2` of the source. -/
structure ivec2 where
  x : Int
  y : Int
deriving DecidableEq, Repr

/-- Component-wise sum, `glm::ivec2 + glm::ivec2`. -/
def ivec2.add (a b : ivec2) : ivec2 := ⟨a.x + b.x, a.y + b.y⟩

/-- Component-wise difference, `glm::ivec2 - glm::ivec2`. -/
def ivec2.sub (a b : ivec2) : ivec2 := ⟨a.x - b.x, a.y - b.y⟩

/-- Division by a scalar, `glm::ivec2 / int`: C++ integer division truncates toward zero. -/
def ivec2.div (a : ivec2) (k : Int) : ivec2 := ⟨a.x.tdiv k, a.y.tdiv k⟩

/-- Modelled from the spec: the closed material enumeration of `pixel.hpp` (absent); the same
fifteen names are listed by `editor.hpp`. -/
inductive pixel_type where
  | air | sand | coal | dirt | water | lava | acid | rock | titanium | steam
  | fuse | ember | oil | gunpowder | methane
deriving DecidableEq, Repr

/-- Modelled from the spec: the coarse behavioural class of a material. -/
inductive pixel_phase where
  | solid | powder | liquid | gas | ember
deriving DecidableEq, Repr

/-- An RGBA colour, `glm::vec4`. -/
structure vec4 where
  r : Rat
  g : Rat
  b : Rat
  a : Rat
deriving DecidableEq

/-- Scaling of a colour, `colour *= k`. -/
def vec4.scale (c : vec4) (k : Rat) : vec4 := ⟨c.r * k, c.g * k, c.b * k, c.a * k⟩

/-- Modelled from the spec: the flag bit set of a pixel (`flags[is_updated]` and friends). -/
structure pixel_flags where
  is_updated : Bool
  is_burning : Bool
  is_falling : Bool
  is_charged : Bool
deriving DecidableEq

/-- Modelled from the spec: the pixel of `pixel.hpp` (absent): material, colour, flags, power and
the vertical velocity accumulator. -/
structure pixel where
  type : pixel_type
  colour : vec4
  flags : pixel_flags
  power : Nat
  velocity_y : Rat
deriving DecidableEq

/-- Modelled from the spec: the static makers `pixel::air()`, `pixel::sand()`, ... of `pixel.hpp`
(absent): a pixel of the given material with cleared flags, no power and no velocity.  The
sampling of the colour from the material's range is not modelled; no statement below depends on
the colour a maker chooses. -/
def pixel.make (t : pixel_type) : pixel :=
  { type := t, colour := ⟨1 / 2, 1 / 2, 1 / 2, 1⟩,
    flags := ⟨false, false, false, false⟩, power := 0, velocity_y := 0 }

/-- The maker `pixel::air()`. -/
def pixel.air : pixel := pixel.make pixel_type.air

/-- The maker `pixel::sand()`. -/
def pixel.sand : pixel := pixel.make pixel_type.sand

/-- The maker `pixel::ember()`. -/
def pixel.ember : pixel := pixel.make pixel_type.ember

/-- The maker `pixel::titanium()`. -/
def pixel.titanium : pixel := pixel.make pixel_type.titanium

/-- The file-level constant `default_pixel = pixel::air()`. -/
def default_pixel : pixel := pixel.air

/-- The chunk record: `should_step` is the spec's `awake_now`, `should_step_next` its
`awake_next`. -/
structure chunk where
  should_step : Bool
  should_step_next : Bool
deriving DecidableEq, Repr

/-- The world: the pixel array `d_pixels` and the chunk array `d_chunks`. -/
structure world where
  d_pixels : Nat → pixel
  d_chunks : Nat → chunk

/-- An all-air world in which every chunk is asleep (what an empty world is after two idle
ticks). -/
def world.asleep : world := ⟨fun _ => pixel.air, fun _ => ⟨false, false⟩⟩

/-! ## `world.cpp` -/

/-- The index of a position in `d_pixels`: `pos.x + world_size * pos.y`. -/
def get_pos (cfg : config) (pos : ivec2) : Nat :=
  (pos.x + (cfg.world_size : Int) * pos.y).toNat

/-- The index of a chunk in `d_chunks`: `chunk.x + num_chunks * chunk.y`. -/
def get_chunk_pos (cfg : config) (chunk : ivec2) : Nat :=
  (chunk.x + (cfg.num_chunks : Int) * chunk.y).toNat

/-- The bounds test `world::valid`. -/
def valid (cfg : config) (pos : ivec2) : Prop :=
  0 ≤ pos.x ∧ pos.x < (cfg.world_size : Int) ∧ 0 ≤ pos.y ∧ pos.y < (cfg.world_size : Int)

instance (cfg : config) (pos : ivec2) : Decidable (valid cfg pos) := by
  unfold valid; infer_instance

/-- The assignment `d_chunks[i].should_step_next = true`. -/
def world.wake (w : world) (i : Nat) : world :=
  { w with d_chunks := Function.update w.d_chunks i { w.d_chunks i with should_step_next := true } }

/-- One of the four edge blocks of `wake_chunk_with_pixel`:
`if (on_edge) { if (valid(neighbour)) d_chunks[get_chunk_pos(neighbour)].should_step_next = true; }`.
The bounds test applied to the chunk coordinate is the pixel test `valid`, as in the source. -/
def world.wake_neighbour (cfg : config) (w : world) (on_edge : Prop) [Decidable on_edge]
    (neighbour : ivec2) : world :=
  if on_edge then
    (if valid cfg neighbour then w.wake (get_chunk_pos cfg neighbour) else w)
  else w

/-- The scheduler hook `world::wake_chunk_with_pixel`: wakes the chunk of `pixel` and then runs
the four edge blocks in the order right, left, down, up. -/
def world.wake_chunk_with_pixel (cfg : config) (w : world) (pixel : ivec2) : world :=
  let chunk := pixel.div cfg.chunk_size
  let w0 := w.wake (get_chunk_pos cfg chunk)
  -- Wake right
  let w1 := w0.wake_neighbour cfg
    (pixel.x ≠ (cfg.world_size : Int) - 1 ∧ (pixel.x + 1) % (cfg.chunk_size : Int) = 0)
    (chunk.add ⟨1, 0⟩)
  -- Wake left
  let w2 := w1.wake_neighbour cfg
    (pixel.x ≠ 0 ∧ (pixel.x - 1) % (cfg.chunk_size : Int) = 0)
    (chunk.sub ⟨1, 0⟩)
  -- Wake down
  let w3 := w2.wake_neighbour cfg
    (pixel.y ≠ (cfg.world_size : Int) - 1 ∧ (pixel.y + 1) % (cfg.chunk_size : Int) = 0)
    (chunk.add ⟨0, 1⟩)
  -- Wake up
  w3.wake_neighbour cfg
    (pixel.y ≠ 0 ∧ (pixel.y - 1) % (cfg.chunk_size : Int) = 0)
    (chunk.sub ⟨0, 1⟩)

/-- The write `world::set`: asserts `valid(pos)`, wakes, then stores the pixel. -/
def world.set (cfg : config) (w : world) (pos : ivec2) (p : pixel) : Option world :=
  if valid cfg pos then
    let w1 := w.wake_chunk_with_pixel cfg pos
    some { w1 with d_pixels := Function.update w1.d_pixels (get_pos cfg pos) p }
  else none

/-- The bulk write `world::fill`: `d_pixels.fill(p)` and nothing else. -/
def world.fill (w : world) (p : pixel) : world :=
  { w with d_pixels := fun _ => p }

/-- The read `world::at(pos) const`: the default pixel out of bounds. -/
def world.at_const (cfg : config) (w : world) (pos : ivec2) : pixel :=
  if ¬ valid cfg pos then default_pixel else w.d_pixels (get_pos cfg pos)

/-- The mutable `world::at(pos)`, read through: asserts `valid(pos)`. -/
def world.at_mut (cfg : config) (w : world) (pos : ivec2) : Option pixel :=
  if valid cfg pos then some (w.d_pixels (get_pos cfg pos)) else none

/-- A store through the reference returned by the mutable `world::at(pos)`, as in
`pixels.at(curr).colour *= 0.8f`: asserts `valid(pos)`, touches no chunk flag. -/
def world.modify_at (cfg : config) (w : world) (pos : ivec2) (f : pixel → pixel) : Option world :=
  if valid cfg pos then
    let q := f (w.d_pixels (get_pos cfg pos))
    some { w with d_pixels := Function.update w.d_pixels (get_pos cfg pos) q }
  else none

/-- The exchange `world::swap`: wakes for both positions, then `std::swap(at(lhs), at(rhs))`
through the asserting accessor, and returns `rhs`. -/
def world.swap (cfg : config) (w : world) (lhs rhs : ivec2) : Option (world × ivec2) :=
  let w1 := w.wake_chunk_with_pixel cfg lhs
  let w2 := w1.wake_chunk_with_pixel cfg rhs
  if valid cfg lhs ∧ valid cfg rhs then
    let a := w2.d_pixels (get_pos cfg lhs)
    let b := w2.d_pixels (get_pos cfg rhs)
    let px := Function.update (Function.update w2.d_pixels (get_pos cfg lhs) b) (get_pos cfg rhs) a
    some ({ w2 with d_pixels := px }, rhs)
  else none

/-- The loop of `world::wake_all_chunks`. -/
def world.wake_all_chunks (w : world) : world :=
  { w with d_chunks := fun i => { w.d_chunks i with should_step_next := true } }

/-- The count `world::num_awake_chunks` over the `num_chunks * num_chunks` chunk records. -/
def world.num_awake_chunks (cfg : config) (w : world) : Nat :=
  (List.range (cfg.num_chunks * cfg.num_chunks)).foldl
    (fun count i => count + (if (w.d_chunks i).should_step then 1 else 0)) 0

/-- The query `world::is_chunk_awake`. -/
def world.is_chunk_awake (cfg : config) (w : world) (pixel : ivec2) : Bool :=
  (w.d_chunks (get_chunk_pos cfg (pixel.div cfg.chunk_size))).should_step

/-! ## The update driver `world::simulate` -/

/-- The collaborators of `world::simulate` that live in headers outside the sources: the random
source behind `coin_flip()` and the per-material dispatcher `update_pixel(*this, pos)`.  The type
`σ` is the state of the random source; a rule may read and rewrite the whole world. -/
structure rules (σ : Type) where
  coin_flip : σ → Bool × σ
  update_pixel : world → ivec2 → σ → world × σ

/-- The rules write nothing in a tick that traverses the world `w`: every dispatch the driver
can make on `w` (an in-bounds cell of an awake chunk whose pixel is not yet updated, any state
of the random source) hands `w` back unchanged.  A property of one tick, not of the rules: rules
that move sand write nothing on a world without sand. -/
def rules.quiet_on {σ : Type} (cfg : config) (r : rules σ) (w : world) : Prop :=
  ∀ (pos : ivec2) (g : σ), valid cfg pos → w.is_chunk_awake cfg pos = true →
    (w.d_pixels (get_pos cfg pos)).flags.is_updated = false → (r.update_pixel w pos g).1 = w

/-- Rules that leave the `should_step` flags alone: the flag is private to the world and only
`simulate` assigns it. -/
def rules.keeps_awake_flags {σ : Type} (r : rules σ) : Prop :=
  ∀ (w : world) (pos : ivec2) (g : σ) (i : Nat),
    ((r.update_pixel w pos g).1.d_chunks i).should_step = (w.d_chunks i).should_step

/-- The simplest rules: the coin always shows heads and no rule writes. -/
def rules.idle : rules Unit :=
  { coin_flip := fun g => (true, g), update_pixel := fun w _ g => (w, g) }

/-- The first loop of `simulate`: `should_step = should_step_next; should_step_next = false`. -/
def world.rotate_chunks (w : world) : world :=
  { w with d_chunks := fun i => ⟨(w.d_chunks i).should_step_next, false⟩ }

/-- The last statement of `simulate`: `p.flags[is_updated] = false` for every pixel. -/
def world.clear_updated (w : world) : world :=
  { w with d_pixels := fun i =>
      { w.d_pixels i with flags := { (w.d_pixels i).flags with is_updated := false } } }

/-- The lambda `inner` of `simulate`.  Its `at(pos)` is the asserting accessor; the driver only
passes in-bounds positions, where it reads `d_pixels[get_pos(pos)]`. -/
def inner {σ : Type} (cfg : config) (r : rules σ) (pos : ivec2) (s : world × σ) : world × σ :=
  if s.1.is_chunk_awake cfg pos && !(s.1.d_pixels (get_pos cfg pos)).flags.is_updated then
    r.update_pixel s.1 pos s.2
  else s

/-- One row of the traversal: `x = 0 .. n-1` on heads, `x = n-1 .. 0` on tails. -/
def row_sweep {S : Type} (n : Nat) (visit : ivec2 → S → S) (heads : Bool) (y : Nat) (s : S) : S :=
  if heads then (List.range n).foldl (fun s (x : Nat) => visit ⟨(x : Int), (y : Int)⟩ s) s
  else (List.range n).reverse.foldl (fun s (x : Nat) => visit ⟨(x : Int), (y : Int)⟩ s) s

/-- The traversal of `simulate`: rows `y - 1 = n-1 .. 0`, one coin flip per row. -/
def sweep {S : Type} (n : Nat) (flip : S → Bool × S) (visit : ivec2 → S → S) (s : S) : S :=
  (List.range n).reverse.foldl (fun s y => row_sweep n visit (flip s).1 y (flip s).2) s

/-- The call `coin_flip()` seen from the driver: it advances the random source only. -/
def driver_flip {σ : Type} (r : rules σ) (s : world × σ) : Bool × (world × σ) :=
  ((r.coin_flip s.2).1, (s.1, (r.coin_flip s.2).2))

/-- One tick, `world::simulate`: rotate the chunk flags, traverse, clear `is_updated`. -/
def world.simulate {σ : Type} (cfg : config) (r : rules σ) (w : world) (g : σ) : world × σ :=
  let s := sweep cfg.world_size (driver_flip r) (inner cfg r) (w.rotate_chunks, g)
  (s.1.clear_updated, s.2)

/-! ### Observing a tick -/

/-- Rules that also record every position they are dispatched at. -/
def rules.logged {σ : Type} (r : rules σ) : rules (σ × List ivec2) :=
  { coin_flip := fun s => ((r.coin_flip s.1).1, ((r.coin_flip s.1).2, s.2)),
    update_pixel := fun w pos s =>
      ((r.update_pixel w pos s.1).1, ((r.update_pixel w pos s.1).2, s.2 ++ [pos])) }

/-- Rules that also record, at every dispatch, the position and the world they were handed. -/
def rules.watched {σ : Type} (r : rules σ) : rules (σ × List (ivec2 × world)) :=
  { coin_flip := fun s => ((r.coin_flip s.1).1, ((r.coin_flip s.1).2, s.2)),
    update_pixel := fun w pos s =>
      ((r.update_pixel w pos s.1).1, ((r.update_pixel w pos s.1).2, s.2 ++ [(pos, w)])) }

/-! ## `explosion.cpp` -/

/-- Multiplication by a scalar, `glm::ivec2 * int`. -/
def ivec2.mul (a : ivec2) (k : Int) : ivec2 := ⟨a.x * k, a.y * k⟩

/-- The parameters of an explosion (`explosion.hpp`, absent): three `float` fields. -/
structure explosion where
  min_radius : Rat
  max_radius : Rat
  scorch : Rat

/-- What floating-point arithmetic and the random source decide along one ray.
* `reach` is `glm::ivec2{(info.max_radius + 3 * info.scorch) * dir}`;
* `past_blast i` is `curr_radius >= blast_limit` at step `i`, with
  `blast_limit = random_from_range(info.min_radius, info.max_radius)` drawn once per ray;
* `past_scorch i` is `curr_radius >= *scorch_limit` at step `i`, with
  `scorch_limit = curr_radius + |random_normal(0, info.scorch)|` fixed when the ray was blocked;
* `ember i` is `random_unit() < 0.05f` at step `i`. -/
structure ray_draws where
  reach : ivec2
  past_blast : Nat → Bool
  past_scorch : Nat → Bool
  ember : Nat → Bool

/-- The scorch mark `colour *= 0.8f`. -/
def darken (p : pixel) : pixel := { p with colour := p.colour.scale (4 / 5) }

/-- The body of the `for (int i = 0; i < steps; ++i)` loop of `explosion_ray`, from step `i` with
`todo` steps left; `scorching` is `scorch_limit.has_value()`.  The table `properties(..).phase`
is the parameter `phase_of`. -/
def ray_loop (cfg : config) (phase_of : pixel → pixel_phase) (d : ray_draws) (a b : ivec2)
    (steps : Int) : Nat → Nat → world → List ivec2 → Bool → Option (world × List ivec2)
  | 0, _, w, checked, _ => some (w, checked)
  | todo + 1, i, w, checked, scorching =>
    let curr := a.add (((b.sub a).mul (i : Int)).div steps)
    if ¬ valid cfg curr then some (w, checked)
    else if scorching then
      if d.past_scorch i then some (w, checked)
      else
        match w.at_mut cfg curr with
        | none => none
        | some p =>
          if phase_of p = pixel_phase.solid then
            match w.modify_at cfg curr darken with
            | none => none
            | some w1 => ray_loop cfg phase_of d a b steps todo (i + 1) w1 checked true
          else ray_loop cfg phase_of d a b steps todo (i + 1) w checked true
    else if curr ∉ checked then
      match w.at_mut cfg curr with
      | none => none
      | some p =>
        if p.type = pixel_type.titanium ∨ d.past_blast i then
          match w.modify_at cfg curr darken with
          | none => none
          | some w1 => ray_loop cfg phase_of d a b steps todo (i + 1) w1 checked true
        else
          match w.set cfg curr (if d.ember i then pixel.ember else pixel.air) with
          | none => none
          | some w1 => ray_loop cfg phase_of d a b steps todo (i + 1) w1 (curr :: checked) false
    else ray_loop cfg phase_of d a b steps todo (i + 1) w checked false

/-- One ray, `explosion_ray`: from `pos` toward `pos + reach` in
`steps = max(|a.x - b.x|, |a.y - b.y|)` steps.  The arguments `dir` and `info` of the source
enter only through the draws. -/
def explosion_ray (cfg : config) (phase_of : pixel → pixel_phase) (d : ray_draws)
    (pixels : world) (checked : List ivec2) (pos : ivec2) : Option (world × List ivec2) :=
  let a := pos
  let b := a.add d.reach
  let steps := max |a.x - b.x| |a.y - b.y|
  ray_loop cfg phase_of d a b steps steps.toNat 0 pixels checked false

/-- The conversion of a `float` to `int`: truncation toward zero. -/
def float_to_int (q : Rat) : Int := if 0 ≤ q then q.floor else q.ceil

/-- The number of iterations of `for (int x = -boundary; x <= boundary; ++x)` with
`boundary = info.max_radius + 3 * info.scorch`. -/
def ray_count (info : explosion) : Nat :=
  let boundary := info.max_radius + 3 * info.scorch
  (boundary.floor + 1 - float_to_int (-boundary)).toNat

/-- One of the four loops of `apply_explosion`: `n` rays, ray `j` with the draws `draws j`. -/
def explosion_side (cfg : config) (phase_of : pixel → pixel_phase) (draws : Nat → ray_draws)
    (pos : ivec2) (n : Nat) (st : Option (world × List ivec2)) : Option (world × List ivec2) :=
  (List.range n).foldl
    (fun st j => st.bind (fun s => explosion_ray cfg phase_of (draws j) s.1 s.2 pos)) st

/-- The operation `apply_explosion`: the four loops over the square boundary share the set
`checked`; `draws k j` are the draws of ray `j` of loop `k`. -/
def apply_explosion (cfg : config) (phase_of : pixel → pixel_phase)
    (draws : Nat → Nat → ray_draws) (pixels : world) (pos : ivec2) (info : explosion) :
    Option world :=
  let n := ray_count info
  let s0 : Option (world × List ivec2) := some (pixels, [])
  let s1 := explosion_side cfg phase_of (draws 0) pos n s0
  let s2 := explosion_side cfg phase_of (draws 1) pos n s1
  let s3 := explosion_side cfg phase_of (draws 2) pos n s2
  let s4 := explosion_side cfg phase_of (draws 3) pos n s3
  s4.map Prod.fst

/-- The world `world.asleep` with one titanium pixel at `(100, 100)`. -/
def titanium_world : world :=
  { world.asleep with
    d_pixels := Function.update world.asleep.d_pixels
      (get_pos config.reference ⟨100, 100⟩) pixel.titanium }

/-- The parameters `main` passes: `{40, 45, 10}`. -/
def explosion.reference : explosion := ⟨40, 45, 10⟩

/-- The state of an explosion centred on a titanium pixel at `c`: compared with the world `w0`
before the call no chunk record has changed, the pixel at `c` is still titanium, and the red
channel of its colour lies in `[0, u]`. -/
def scorched_centre (cfg : config) (c : ivec2) (w0 : world) (u : Rat) (w : world) : Prop :=
  w.d_chunks = w0.d_chunks ∧
  (w.d_pixels (get_pos cfg c)).type = pixel_type.titanium ∧
  0 ≤ (w.d_pixels (get_pos cfg c)).colour.r ∧ (w.d_pixels (get_pos cfg c)).colour.r ≤ u

/-! ## Lemmas on the chunk flags -/

theorem wake_next_self (w : world) (i : Nat) :
    ((w.wake i).d_chunks i).should_step_next = true := by
  simp [world.wake]

theorem wake_next_mono (w : world) (i j : Nat)
    (h : (w.d_chunks j).should_step_next = true) :
    ((w.wake i).d_chunks j).should_step_next = true := by
  by_cases hji : j = i
  · subst hji; exact wake_next_self w j
  · simp [world.wake, Function.update_noteq hji, h]

theorem wake_pixels (w : world) (i : Nat) : (w.wake i).d_pixels = w.d_pixels := rfl

theorem wake_neighbour_mono (cfg : config) (w : world) (on_edge : Prop) [Decidable on_edge]
    (neighbour : ivec2) (j : Nat) (h : (w.d_chunks j).should_step_next = true) :
    ((w.wake_neighbour cfg on_edge neighbour).d_chunks j).should_step_next = true := by
  unfold world.wake_neighbour
  split_ifs
  · exact wake_next_mono w _ j h
  · exact h
  · exact h

theorem wake_neighbour_pixels (cfg : config) (w : world) (on_edge : Prop) [Decidable on_edge]
    (neighbour : ivec2) : (w.wake_neighbour cfg on_edge neighbour).d_pixels = w.d_pixels := by
  unfold world.wake_neighbour
  split_ifs <;> rfl

theorem wake_chunk_with_pixel_mono (cfg : config) (w : world) (pixel : ivec2) (j : Nat)
    (h : (w.d_chunks j).should_step_next = true) :
    ((w.wake_chunk_with_pixel cfg pixel).d_chunks j).should_step_next = true := by
  unfold world.wake_chunk_with_pixel
  exact wake_neighbour_mono cfg _ _ _ j (wake_neighbour_mono cfg _ _ _ j
    (wake_neighbour_mono cfg _ _ _ j (wake_neighbour_mono cfg _ _ _ j (wake_next_mono w _ j h))))

theorem wake_chunk_with_pixel_own (cfg : config) (w : world) (pixel : ivec2) :
    ((w.wake_chunk_with_pixel cfg pixel).d_chunks
      (get_chunk_pos cfg (pixel.div cfg.chunk_size))).should_step_next = true := by
  unfold world.wake_chunk_with_pixel
  exact wake_neighbour_mono cfg _ _ _ _ (wake_neighbour_mono cfg _ _ _ _
    (wake_neighbour_mono cfg _ _ _ _ (wake_neighbour_mono cfg _ _ _ _ (wake_next_self w _))))

theorem wake_chunk_with_pixel_pixels (cfg : config) (w : world) (pixel : ivec2) :
    (w.wake_chunk_with_pixel cfg pixel).d_pixels = w.d_pixels := by
  unfold world.wake_chunk_with_pixel
  simp only [wake_neighbour_pixels, wake_pixels]

/-- At an in-bounds position the chunk index the code computes is `cy * M + cx` with
`cx = x / C` and `cy = y / C`. -/
theorem get_chunk_pos_of_valid (cfg : config) (p : ivec2) (hp : valid cfg p) :
    get_chunk_pos cfg (p.div cfg.chunk_size) =
      (p.y / (cfg.chunk_size : Int) * (cfg.num_chunks : Int) + p.x / (cfg.chunk_size : Int)).toNat := by
  obtain ⟨hx, _, hy, _⟩ := hp
  unfold get_chunk_pos ivec2.div
  simp only []
  rw [Int.tdiv_eq_ediv hx (Int.ofNat_nonneg _), Int.tdiv_eq_ediv hy (Int.ofNat_nonneg _)]
  congr 1
  ring

theorem set_of_valid (cfg : config) (w : world) (p : ivec2) (q : pixel) (hp : valid cfg p) :
    w.set cfg p q = some
      { d_pixels := Function.update (w.wake_chunk_with_pixel cfg p).d_pixels (get_pos cfg p) q,
        d_chunks := (w.wake_chunk_with_pixel cfg p).d_chunks } := by
  simp only [world.set, if_pos hp]

theorem swap_of_valid (cfg : config) (w : world) (a b : ivec2) (ha : valid cfg a)
    (hb : valid cfg b) :
    w.swap cfg a b = some
      ({ d_pixels :=
           Function.update
             (Function.update ((w.wake_chunk_with_pixel cfg a).wake_chunk_with_pixel cfg b).d_pixels
               (get_pos cfg a)
               (((w.wake_chunk_with_pixel cfg a).wake_chunk_with_pixel cfg b).d_pixels
                 (get_pos cfg b)))
             (get_pos cfg b)
             (((w.wake_chunk_with_pixel cfg a).wake_chunk_with_pixel cfg b).d_pixels
               (get_pos cfg a)),
         d_chunks := ((w.wake_chunk_with_pixel cfg a).wake_chunk_with_pixel cfg b).d_chunks },
       b) := by
  simp only [world.swap, if_pos (And.intro ha hb)]

/-! ## Writes and the chunk flags -/

/-- C5: every write wakes the owning chunk. For an in-bounds `p`, `set(p, q)` succeeds and the
chunk stored at `cy * M + cx` (with `cx = p.x / C`, `cy = p.y / C`) has `should_step_next`;
for in-bounds `a` and `b`, `swap(a, b)` succeeds, returns `b`, and the chunks of `a` and of `b`
both have `should_step_next`. -/
theorem write_wakes_owning_chunk (cfg : config) (w : world) (p a b : ivec2) (q : pixel)
    (hp : valid cfg p) (ha : valid cfg a) (hb : valid cfg b) :
    (∃ w1, w.set cfg p q = some w1 ∧
      (w1.d_chunks (p.y / (cfg.chunk_size : Int) * (cfg.num_chunks : Int)
        + p.x / (cfg.chunk_size : Int)).toNat).should_step_next = true) ∧
    (∃ w2, w.swap cfg a b = some (w2, b) ∧
      (w2.d_chunks (a.y / (cfg.chunk_size : Int) * (cfg.num_chunks : Int)
        + a.x / (cfg.chunk_size : Int)).toNat).should_step_next = true ∧
      (w2.d_chunks (b.y / (cfg.chunk_size : Int) * (cfg.num_chunks : Int)
        + b.x / (cfg.chunk_size : Int)).toNat).should_step_next = true) := by
  constructor
  · refine ⟨_, set_of_valid cfg w p q hp, ?_⟩
    rw [← get_chunk_pos_of_valid cfg p hp]
    exact wake_chunk_with_pixel_own cfg w p
  · refine ⟨_, swap_of_valid cfg w a b ha hb, ?_, ?_⟩
    · rw [← get_chunk_pos_of_valid cfg a ha]
      exact wake_chunk_with_pixel_mono cfg _ b _ (wake_chunk_with_pixel_own cfg w a)
    · rw [← get_chunk_pos_of_valid cfg b hb]
      exact wake_chunk_with_pixel_own cfg _ b

/-- Witness of C5 on the reference grid: a write at `(20, 40)` and a swap of `(15, 0)` with
`(16, 0)`. -/
theorem write_wakes_owning_chunk_witness :
    (∃ w1, world.asleep.set config.reference ⟨20, 40⟩ pixel.sand = some w1 ∧
      (w1.d_chunks ((40 : Int) / ((16 : Nat) : Int) * ((16 : Nat) : Int)
        + (20 : Int) / ((16 : Nat) : Int)).toNat).should_step_next = true) ∧
    (∃ w2, world.asleep.swap config.reference ⟨15, 0⟩ ⟨16, 0⟩ = some (w2, ⟨16, 0⟩) ∧
      (w2.d_chunks ((0 : Int) / ((16 : Nat) : Int) * ((16 : Nat) : Int)
        + (15 : Int) / ((16 : Nat) : Int)).toNat).should_step_next = true ∧
      (w2.d_chunks ((0 : Int) / ((16 : Nat) : Int) * ((16 : Nat) : Int)
        + (16 : Int) / ((16 : Nat) : Int)).toNat).should_step_next = true) :=
  write_wakes_owning_chunk config.reference world.asleep ⟨20, 40⟩ ⟨15, 0⟩ ⟨16, 0⟩ pixel.sand
    (by decide) (by decide) (by decide)

/-- C1, evaluated on the reference grid (`C = 16`): the pixel `(16, 0)` is the leftmost column of
chunk 1 and its left neighbour `(15, 0)` is in bounds and lies in chunk 0, yet after
`set((16, 0), sand)` on a sleeping world chunk 1 is woken and chunk 0 is not. -/
theorem set_on_left_edge_leaves_neighbour_asleep :
    valid config.reference ⟨16, 0⟩ ∧ valid config.reference ⟨15, 0⟩ ∧
    get_chunk_pos config.reference ((⟨16, 0⟩ : ivec2).div 16) = 1 ∧
    get_chunk_pos config.reference ((⟨15, 0⟩ : ivec2).div 16) = 0 ∧
    (world.asleep.set config.reference ⟨16, 0⟩ pixel.sand).map
      (fun w => ((w.d_chunks 0).should_step_next, (w.d_chunks 1).should_step_next))
      = some (false, true) := by
  decide

/-- C6, evaluated on the reference grid (`C = 16`): the pixel `(17, 0)` and its in-bounds
neighbours `(16, 0)`, `(18, 0)`, `(17, 1)` all lie in chunk 1, yet `set((17, 0), sand)` on a
sleeping world changes the `should_step_next` flag of chunk 0 from false to true. -/
theorem set_off_edge_wakes_far_chunk :
    valid config.reference ⟨17, 0⟩ ∧
    get_chunk_pos config.reference ((⟨17, 0⟩ : ivec2).div 16) = 1 ∧
    get_chunk_pos config.reference ((⟨16, 0⟩ : ivec2).div 16) = 1 ∧
    get_chunk_pos config.reference ((⟨18, 0⟩ : ivec2).div 16) = 1 ∧
    get_chunk_pos config.reference ((⟨17, 1⟩ : ivec2).div 16) = 1 ∧
    ¬ valid config.reference ⟨17, -1⟩ ∧
    (world.asleep.d_chunks 0).should_step_next = false ∧
    (world.asleep.set config.reference ⟨17, 0⟩ pixel.sand).map
      (fun w => (w.d_chunks 0).should_step_next) = some true := by
  decide

/-- C2, evaluated: `fill(sand)` on a sleeping world stores sand in every cell and leaves every
chunk record as it was, so no chunk has `should_step_next`. -/
theorem fill_leaves_chunks_asleep :
    (∀ i, (world.asleep.fill pixel.sand).d_pixels i = pixel.sand) ∧
    (∀ (w : world) (q : pixel), (w.fill q).d_chunks = w.d_chunks) ∧
    (∀ i, ((world.asleep.fill pixel.sand).d_chunks i).should_step_next = false) := by
  refine ⟨fun _ => rfl, fun _ _ => rfl, fun _ => rfl⟩

/-! ## Lemmas on the traversal -/

theorem foldl_preserves {α β : Type} (P : β → Prop) (f : β → α → β) (l : List α) (b : β)
    (hb : P b) (hf : ∀ b a, P b → P (f b a)) : P (l.foldl f b) := by
  induction l generalizing b with
  | nil => exact hb
  | cons a t ih => exact ih (f b a) (hf b a hb)

theorem row_sweep_preserves {S : Type} (P : S → Prop) (n : Nat) (visit : ivec2 → S → S)
    (heads : Bool) (y : Nat) (s : S) (hs : P s) (hv : ∀ pos s, P s → P (visit pos s)) :
    P (row_sweep n visit heads y s) := by
  unfold row_sweep
  split_ifs
  · exact foldl_preserves P _ _ s hs (fun b a hb => hv _ b hb)
  · exact foldl_preserves P _ _ s hs (fun b a hb => hv _ b hb)

theorem sweep_preserves {S : Type} (P : S → Prop) (n : Nat) (flip : S → Bool × S)
    (visit : ivec2 → S → S) (s : S) (hs : P s) (hflip : ∀ s, P s → P (flip s).2)
    (hv : ∀ pos s, P s → P (visit pos s)) : P (sweep n flip visit s) := by
  unfold sweep
  exact foldl_preserves P _ _ s hs
    (fun b y hb => row_sweep_preserves P n visit _ y _ (hflip b hb) hv)

theorem foldl_related {α β γ : Type} (R : β → γ → Prop) (f : β → α → β) (f2 : γ → α → γ)
    (l : List α) (b : β) (c : γ) (h : R b c)
    (hf : ∀ b c a, R b c → R (f b a) (f2 c a)) : R (l.foldl f b) (l.foldl f2 c) := by
  induction l generalizing b c with
  | nil => exact h
  | cons a t ih => exact ih (f b a) (f2 c a) (hf b c a h)

theorem sweep_related {S T : Type} (R : S → T → Prop) (n : Nat) (flip : S → Bool × S)
    (flip2 : T → Bool × T) (visit : ivec2 → S → S) (visit2 : ivec2 → T → T) (s : S) (t : T)
    (h : R s t) (hflip : ∀ s t, R s t → (flip s).1 = (flip2 t).1 ∧ R (flip s).2 (flip2 t).2)
    (hv : ∀ pos s t, R s t → R (visit pos s) (visit2 pos t)) :
    R (sweep n flip visit s) (sweep n flip2 visit2 t) := by
  unfold sweep
  refine foldl_related R _ _ _ s t h ?_
  intro b c y hbc
  obtain ⟨h1, h2⟩ := hflip b c hbc
  unfold row_sweep
  rw [h1]
  split_ifs
  · exact foldl_related R _ _ _ _ _ h2 (fun b c a hr => hv _ b c hr)
  · exact foldl_related R _ _ _ _ _ h2 (fun b c a hr => hv _ b c hr)

theorem foldl_preserves_mem {α β : Type} (P : β → Prop) (f : β → α → β) (l : List α) (b : β)
    (hb : P b) (hf : ∀ b a, a ∈ l → P b → P (f b a)) : P (l.foldl f b) := by
  induction l generalizing b with
  | nil => exact hb
  | cons a t ih =>
    exact ih (f b a) (hf b a (List.mem_cons_self a t) hb)
      (fun b2 a2 ha2 hb2 => hf b2 a2 (List.mem_cons_of_mem a ha2) hb2)

/-- An invariant of the traversal needs to survive the visits of the grid cells only. -/
theorem sweep_preserves_cells {S : Type} (P : S → Prop) (n : Nat) (flip : S → Bool × S)
    (visit : ivec2 → S → S) (s : S) (hs : P s) (hflip : ∀ s, P s → P (flip s).2)
    (hv : ∀ (x y : Nat) (s : S), x < n → y < n → P s → P (visit ⟨(x : Int), (y : Int)⟩ s)) :
    P (sweep n flip visit s) := by
  unfold sweep
  refine foldl_preserves_mem P _ _ s hs ?_
  intro b y hy hb
  have hy2 : y < n := by simpa using hy
  unfold row_sweep
  split_ifs
  · exact foldl_preserves_mem P _ _ _ (hflip b hb)
      (fun b2 x hx hb2 => hv x y b2 (by simpa using hx) hy2 hb2)
  · exact foldl_preserves_mem P _ _ _ (hflip b hb)
      (fun b2 x hx hb2 => hv x y b2 (by simpa using hx) hy2 hb2)

theorem valid_cell (cfg : config) (x y : Nat) (hx : x < cfg.world_size)
    (hy : y < cfg.world_size) : valid cfg ⟨(x : Int), (y : Int)⟩ := by
  unfold valid
  simp only []
  omega

/-- What `inner` does at a cell of a world the rules write nothing on. -/
theorem inner_quiet {σ : Type} (cfg : config) (r : rules σ) (v : world)
    (hq : r.quiet_on cfg v) (pos : ivec2) (hpos : valid cfg pos) (g : σ) :
    (inner cfg r pos (v, g)).1 = v := by
  unfold inner
  split_ifs with hc
  · simp only [Bool.and_eq_true, Bool.not_eq_true'] at hc
    exact hq pos g hpos hc.1 hc.2
  · rfl

/-- In a tick in which the rules write nothing the traversal leaves the world as it is. -/
theorem quiet_sweep_world {σ : Type} (cfg : config) (r : rules σ) (v : world)
    (hq : r.quiet_on cfg v) (g : σ) :
    (sweep cfg.world_size (driver_flip r) (inner cfg r) (v, g)).1 = v := by
  refine sweep_preserves_cells (fun s => s.1 = v) _ _ _ (v, g) rfl ?_ ?_
  · intro s hs; exact hs
  · rintro x y ⟨sw, sg⟩ hx hy hs
    simp only at hs
    subst hs
    exact inner_quiet cfg r sw hq _ (valid_cell cfg x y hx hy) sg

theorem quiet_simulate_chunks {σ : Type} (cfg : config) (r : rules σ) (w : world) (g : σ)
    (hq : r.quiet_on cfg w.rotate_chunks) :
    (w.simulate cfg r g).1.d_chunks = w.rotate_chunks.d_chunks := by
  unfold world.simulate
  simp only [world.clear_updated]
  rw [quiet_sweep_world cfg r _ hq]

/-- On a world whose chunks are all asleep no rule is dispatched, so the rules write nothing. -/
theorem quiet_on_of_asleep {σ : Type} (cfg : config) (r : rules σ) (v : world)
    (h : ∀ i, (v.d_chunks i).should_step = false) : r.quiet_on cfg v := by
  intro pos g _ hawake _
  unfold world.is_chunk_awake at hawake
  rw [h] at hawake
  exact absurd hawake (by decide)

/-- The watched rules drive the same tick as the rules they wrap. -/
theorem watched_sweep_related {σ : Type} (cfg : config) (r : rules σ) (w : world) (g : σ)
    (log : List (ivec2 × world)) :
    (sweep cfg.world_size (driver_flip r.watched) (inner cfg r.watched) (w, (g, log))).1
        = (sweep cfg.world_size (driver_flip r) (inner cfg r) (w, g)).1 ∧
    (sweep cfg.world_size (driver_flip r.watched) (inner cfg r.watched) (w, (g, log))).2.1
        = (sweep cfg.world_size (driver_flip r) (inner cfg r) (w, g)).2 := by
  refine sweep_related
    (fun (s : world × (σ × List (ivec2 × world))) (t : world × σ) => s.1 = t.1 ∧ s.2.1 = t.2)
    _ _ _ _ _ (w, (g, log)) (w, g) ⟨rfl, rfl⟩ ?_ ?_
  · rintro ⟨sw, sg, sl⟩ ⟨tw, tg⟩ ⟨h1, h2⟩
    simp only at h1 h2
    subst h1; subst h2
    exact ⟨rfl, rfl, rfl⟩
  · rintro pos ⟨sw, sg, sl⟩ ⟨tw, tg⟩ ⟨h1, h2⟩
    simp only at h1 h2
    subst h1; subst h2
    unfold inner
    simp only []
    split_ifs
    · exact ⟨rfl, rfl⟩
    · exact ⟨rfl, rfl⟩

/-- Whatever the rules do, the first rule dispatched in a traversal that starts from the world
`v` is handed `v` itself. -/
theorem first_dispatch_sees_start {σ : Type} (cfg : config) (r : rules σ) (v : world) (g : σ) :
    ∀ e, (sweep cfg.world_size (driver_flip r.watched) (inner cfg r.watched)
      (v, (g, []))).2.2.head? = some e → e.2 = v := by
  have key := sweep_preserves
    (fun (s : world × (σ × List (ivec2 × world))) =>
      (s.2.2 = [] ∧ s.1 = v) ∨ (∃ e t, s.2.2 = e :: t ∧ e.2 = v))
    cfg.world_size (driver_flip r.watched) (inner cfg r.watched) (v, (g, []))
    (Or.inl ⟨rfl, rfl⟩) (fun s hs => hs)
    (by
      rintro pos ⟨sw, sg, sl⟩ hs
      unfold inner
      simp only []
      split_ifs
      · rcases hs with ⟨h1, h2⟩ | ⟨e, t, h1, h2⟩
        · simp only at h1 h2
          subst h1; subst h2
          exact Or.inr ⟨(pos, sw), [], rfl, rfl⟩
        · simp only at h1
          subst h1
          exact Or.inr ⟨e, t ++ [(pos, sw)], rfl, h2⟩
      · exact hs)
  intro e he
  rcases key with ⟨h1, _⟩ | ⟨e2, t, h1, h2⟩
  · rw [h1] at he; simp at he
  · rw [h1] at he
    simp only [List.head?_cons, Option.some.injEq] at he
    rw [← he]; exact h2

/-- In a tick in which the rules write nothing every rule dispatched is handed the world the
traversal started from. -/
theorem quiet_dispatches_see_start {σ : Type} (cfg : config) (r : rules σ) (v : world)
    (hq : r.quiet_on cfg v) (g : σ) :
    ∀ e ∈ (sweep cfg.world_size (driver_flip r.watched) (inner cfg r.watched)
      (v, (g, []))).2.2, e.2 = v := by
  have key := sweep_preserves_cells
    (fun (s : world × (σ × List (ivec2 × world))) => s.1 = v ∧ ∀ e ∈ s.2.2, e.2 = v)
    cfg.world_size (driver_flip r.watched) (inner cfg r.watched) (v, (g, []))
    ⟨rfl, fun _ he => by simp at he⟩ (fun s hs => hs)
    (by
      rintro x y ⟨sw, sg, sl⟩ hx hy ⟨h1, h2⟩
      simp only at h1 h2
      subst h1
      unfold inner
      simp only []
      split_ifs with hc
      · simp only [Bool.and_eq_true, Bool.not_eq_true'] at hc
        refine ⟨hq _ sg (valid_cell cfg x y hx hy) hc.1 hc.2, fun e he => ?_⟩
        simp only [rules.watched, List.mem_append, List.mem_singleton] at he
        rcases he with he | he
        · exact h2 e he
        · rw [he]
      · exact ⟨rfl, h2⟩)
  exact key.2

theorem count_foldl (p : Nat → Bool) (l : List Nat) (c : Nat) :
    l.foldl (fun count i => count + (if p i then 1 else 0)) c = c + l.countP p := by
  induction l generalizing c with
  | nil => simp
  | cons a t ih =>
    rw [List.foldl_cons, ih, List.countP_cons]
    by_cases h : p a = true
    · simp [h]; omega
    · simp [h]

theorem num_awake_chunks_eq (cfg : config) (w : world) :
    w.num_awake_chunks cfg =
      (List.range (cfg.num_chunks * cfg.num_chunks)).countP (fun i => (w.d_chunks i).should_step) := by
  unfold world.num_awake_chunks
  rw [count_foldl]
  simp

theorem idle_quiet_on (cfg : config) (w : world) : rules.idle.quiet_on cfg w :=
  fun _ _ _ _ _ => rfl

/-! ## The tick and the chunk flags -/

/-- C7: when `simulate()` returns, every pixel of the grid has `is_updated` false, whatever the
rules and the random source do; so has every pixel the read accessor returns. -/
theorem simulate_clears_is_updated {σ : Type} (cfg : config) (r : rules σ) (w : world) (g : σ) :
    (∀ i, ((w.simulate cfg r g).1.d_pixels i).flags.is_updated = false) ∧
    (∀ pos, ((w.simulate cfg r g).1.at_const cfg pos).flags.is_updated = false) := by
  have h : ∀ i, ((w.simulate cfg r g).1.d_pixels i).flags.is_updated = false := fun _ => rfl
  refine ⟨h, fun pos => ?_⟩
  unfold world.at_const
  by_cases hv : valid cfg pos
  · rw [if_neg (not_not.mpr hv)]; exact h _
  · rw [if_pos hv]; rfl

/-- C8: `simulate()` rotates the chunk flags before visiting any cell. Whatever the rules, the
first rule dispatched in a tick is handed the world of the call with its pixels untouched and
every chunk rotated: `should_step` is the old `should_step_next` and `should_step_next` is false
(recording the dispatches does not change the tick). In a tick in which the rules write nothing
every rule dispatched is handed those rotated flags, and when `simulate()` returns each chunk
has `should_step` equal to its `should_step_next` from before the call, every
`should_step_next` is false, and `num_awake_chunks()` is the number of chunks that had
`should_step_next` before the call. -/
theorem simulate_rotates_chunk_flags {σ : Type} (cfg : config) (r : rules σ) (w : world) (g : σ)
    (hq : r.quiet_on cfg w.rotate_chunks) :
    (∀ (r2 : rules σ) (g2 : σ),
      ((w.simulate cfg r2.watched (g2, [])).1 = (w.simulate cfg r2 g2).1 ∧
        (w.simulate cfg r2.watched (g2, [])).2.1 = (w.simulate cfg r2 g2).2) ∧
      ∀ e, (w.simulate cfg r2.watched (g2, [])).2.2.head? = some e →
        e.2.d_pixels = w.d_pixels ∧
        ∀ i, e.2.d_chunks i = ⟨(w.d_chunks i).should_step_next, false⟩) ∧
    (∀ e ∈ (w.simulate cfg r.watched (g, [])).2.2,
      ∀ i, e.2.d_chunks i = ⟨(w.d_chunks i).should_step_next, false⟩) ∧
    (∀ i, ((w.simulate cfg r g).1.d_chunks i).should_step = (w.d_chunks i).should_step_next) ∧
    (∀ i, ((w.simulate cfg r g).1.d_chunks i).should_step_next = false) ∧
    (w.simulate cfg r g).1.num_awake_chunks cfg =
      ((List.range (cfg.num_chunks * cfg.num_chunks)).filter
        (fun i => (w.d_chunks i).should_step_next)).length := by
  refine ⟨fun r2 g2 => ⟨?_, ?_⟩, ?_, ?_, ?_, ?_⟩
  · obtain ⟨h1, h2⟩ := watched_sweep_related cfg r2 w.rotate_chunks g2 []
    unfold world.simulate
    simp only []
    rw [h1, h2]
    exact ⟨rfl, rfl⟩
  · intro e he
    have h := first_dispatch_sees_start cfg r2 w.rotate_chunks g2 e he
    rw [h]
    exact ⟨rfl, fun _ => rfl⟩
  · intro e he i
    have h := quiet_dispatches_see_start cfg r w.rotate_chunks hq g e he
    rw [h]
    rfl
  · intro i; rw [quiet_simulate_chunks cfg r w g hq]; rfl
  · intro i; rw [quiet_simulate_chunks cfg r w g hq]; rfl
  · rw [num_awake_chunks_eq, quiet_simulate_chunks cfg r w g hq, List.countP_eq_length_filter]
    rfl

/-- Witness of C8: an idle tick on the reference grid after waking every chunk. -/
theorem simulate_rotates_chunk_flags_witness :
    (∀ (r2 : rules Unit) (g2 : Unit),
      ((world.asleep.wake_all_chunks.simulate config.reference r2.watched (g2, [])).1
          = (world.asleep.wake_all_chunks.simulate config.reference r2 g2).1 ∧
        (world.asleep.wake_all_chunks.simulate config.reference r2.watched (g2, [])).2.1
          = (world.asleep.wake_all_chunks.simulate config.reference r2 g2).2) ∧
      ∀ e, (world.asleep.wake_all_chunks.simulate config.reference r2.watched
          (g2, [])).2.2.head? = some e →
        e.2.d_pixels = world.asleep.wake_all_chunks.d_pixels ∧
        ∀ i, e.2.d_chunks i
          = ⟨(world.asleep.wake_all_chunks.d_chunks i).should_step_next, false⟩) ∧
    (∀ e ∈ (world.asleep.wake_all_chunks.simulate config.reference rules.idle.watched
        ((), [])).2.2,
      ∀ i, e.2.d_chunks i = ⟨(world.asleep.wake_all_chunks.d_chunks i).should_step_next, false⟩) ∧
    (∀ i, ((world.asleep.wake_all_chunks.simulate config.reference rules.idle ()).1.d_chunks
      i).should_step = (world.asleep.wake_all_chunks.d_chunks i).should_step_next) ∧
    (∀ i, ((world.asleep.wake_all_chunks.simulate config.reference rules.idle ()).1.d_chunks
      i).should_step_next = false) ∧
    (world.asleep.wake_all_chunks.simulate config.reference rules.idle ()).1.num_awake_chunks
        config.reference =
      ((List.range (config.reference.num_chunks * config.reference.num_chunks)).filter
        (fun i => (world.asleep.wake_all_chunks.d_chunks i).should_step_next)).length :=
  simulate_rotates_chunk_flags config.reference rules.idle world.asleep.wake_all_chunks ()
    (idle_quiet_on config.reference _)

/-- C3 as stated fails: on the reference grid, after `wake_all_chunks()` and one tick in which
the rules write nothing, all 256 chunks have `should_step` set, so `num_awake_chunks()` is 256
and not 0. -/
theorem wake_all_then_idle_tick_still_awake :
    rules.idle.quiet_on config.reference world.asleep.wake_all_chunks.rotate_chunks ∧
    (world.asleep.wake_all_chunks.simulate config.reference rules.idle ()).1.num_awake_chunks
      config.reference = 256 ∧
    (world.asleep.wake_all_chunks.simulate config.reference rules.idle ()).1.num_awake_chunks
      config.reference ≠ 0 := by
  have h : (world.asleep.wake_all_chunks.simulate config.reference rules.idle
      ()).1.num_awake_chunks config.reference = 256 := by
    rw [num_awake_chunks_eq, quiet_simulate_chunks config.reference rules.idle _ _
      (idle_quiet_on config.reference _)]
    have hall : ∀ i ∈ List.range (config.reference.num_chunks * config.reference.num_chunks),
        (fun i => (world.asleep.wake_all_chunks.rotate_chunks.d_chunks i).should_step) i = true :=
      fun _ _ => rfl
    rw [List.countP_eq_length.mpr hall, List.length_range]
    rfl
  exact ⟨idle_quiet_on config.reference _, h, by rw [h]; decide⟩

/-- C3 amended: after `wake_all_chunks()` and one tick in which the rules write nothing, every
chunk has `should_step_next` false and `should_step` true, so `num_awake_chunks()` is the number
of chunks `M * M`; after one more tick (in which no rule is dispatched, every chunk being
asleep) no chunk has `should_step` and `num_awake_chunks()` is 0. -/
theorem wake_all_then_two_idle_ticks_asleep {σ : Type} (cfg : config) (r : rules σ) (w : world)
    (g : σ) (hq : r.quiet_on cfg w.wake_all_chunks.rotate_chunks) :
    (∀ i, (w.wake_all_chunks.simulate cfg r g).1.d_chunks i = ⟨true, false⟩) ∧
    (w.wake_all_chunks.simulate cfg r g).1.num_awake_chunks cfg
      = cfg.num_chunks * cfg.num_chunks ∧
    (∀ i, (((w.wake_all_chunks.simulate cfg r g).1.simulate cfg r
      (w.wake_all_chunks.simulate cfg r g).2).1.d_chunks i).should_step = false) ∧
    ((w.wake_all_chunks.simulate cfg r g).1.simulate cfg r
      (w.wake_all_chunks.simulate cfg r g).2).1.num_awake_chunks cfg = 0 := by
  have h1 : ∀ i, (w.wake_all_chunks.simulate cfg r g).1.d_chunks i = ⟨true, false⟩ := by
    intro i; rw [quiet_simulate_chunks cfg r _ g hq]; rfl
  have hq2 : r.quiet_on cfg (w.wake_all_chunks.simulate cfg r g).1.rotate_chunks :=
    quiet_on_of_asleep cfg r _ (fun i => by simp only [world.rotate_chunks, h1])
  have h2 : ∀ i, (((w.wake_all_chunks.simulate cfg r g).1.simulate cfg r
      (w.wake_all_chunks.simulate cfg r g).2).1.d_chunks i).should_step = false := by
    intro i
    rw [quiet_simulate_chunks cfg r _ _ hq2]
    simp only [world.rotate_chunks, h1]
  refine ⟨h1, ?_, h2, ?_⟩
  · rw [num_awake_chunks_eq, List.countP_eq_length.mpr (fun i _ => by rw [h1 i])]
    simp
  · rw [num_awake_chunks_eq, List.countP_eq_zero.mpr (fun i _ => by rw [h2 i]; simp)]

/-- Witness of the amended C3 on the reference grid with idle rules. -/
theorem wake_all_then_two_idle_ticks_asleep_witness :
    (∀ i, (world.asleep.wake_all_chunks.simulate config.reference rules.idle ()).1.d_chunks i
      = ⟨true, false⟩) ∧
    (world.asleep.wake_all_chunks.simulate config.reference rules.idle ()).1.num_awake_chunks
      config.reference = config.reference.num_chunks * config.reference.num_chunks ∧
    (∀ i, (((world.asleep.wake_all_chunks.simulate config.reference rules.idle ()).1.simulate
      config.reference rules.idle
      (world.asleep.wake_all_chunks.simulate config.reference rules.idle ()).2).1.d_chunks
        i).should_step = false) ∧
    ((world.asleep.wake_all_chunks.simulate config.reference rules.idle ()).1.simulate
      config.reference rules.idle
      (world.asleep.wake_all_chunks.simulate config.reference rules.idle ()).2).1.num_awake_chunks
        config.reference = 0 :=
  wake_all_then_two_idle_ticks_asleep config.reference rules.idle world.asleep ()
    (idle_quiet_on config.reference _)

/-! ## Dispatch -/

/-- The logged rules drive the same tick as the rules they wrap. -/
theorem logged_sweep_related {σ : Type} (cfg : config) (r : rules σ) (w : world) (g : σ)
    (log : List ivec2) :
    (sweep cfg.world_size (driver_flip r.logged) (inner cfg r.logged) (w, (g, log))).1
        = (sweep cfg.world_size (driver_flip r) (inner cfg r) (w, g)).1 ∧
    (sweep cfg.world_size (driver_flip r.logged) (inner cfg r.logged) (w, (g, log))).2.1
        = (sweep cfg.world_size (driver_flip r) (inner cfg r) (w, g)).2 := by
  refine sweep_related
    (fun (s : world × (σ × List ivec2)) (t : world × σ) => s.1 = t.1 ∧ s.2.1 = t.2)
    _ _ _ _ _ (w, (g, log)) (w, g) ⟨rfl, rfl⟩ ?_ ?_
  · rintro ⟨sw, sg, sl⟩ ⟨tw, tg⟩ ⟨h1, h2⟩
    simp only at h1 h2
    subst h1; subst h2
    exact ⟨rfl, rfl, rfl⟩
  · rintro pos ⟨sw, sg, sl⟩ ⟨tw, tg⟩ ⟨h1, h2⟩
    simp only at h1 h2
    subst h1; subst h2
    unfold inner
    simp only []
    split_ifs
    · exact ⟨rfl, rfl⟩
    · exact ⟨rfl, rfl⟩

/-- C9: at a visit of `pos` the rule is dispatched (the log grows by `pos`) exactly when the chunk
of `pos` has `should_step` and the pixel at `pos` has `is_updated` clear; logging does not
change the tick; and, the rules leaving `should_step` alone, every position a rule was
dispatched at during `simulate()` lies in a chunk whose `should_step_next` was true at the call. -/
theorem dispatch_iff_awake_and_fresh {σ : Type} (cfg : config) (r : rules σ)
    (hr : r.keeps_awake_flags) (w : world) (g : σ) :
    (∀ (w1 : world) (g1 : σ) (log : List ivec2) (pos : ivec2),
      (inner cfg r.logged pos (w1, (g1, log))).2.2 =
        if (w1.d_chunks (get_chunk_pos cfg (pos.div cfg.chunk_size))).should_step = true ∧
            (w1.d_pixels (get_pos cfg pos)).flags.is_updated = false
        then log ++ [pos] else log) ∧
    ((w.simulate cfg r.logged (g, [])).1 = (w.simulate cfg r g).1 ∧
      (w.simulate cfg r.logged (g, [])).2.1 = (w.simulate cfg r g).2) ∧
    (∀ pos ∈ (w.simulate cfg r.logged (g, [])).2.2,
      (w.d_chunks (get_chunk_pos cfg (pos.div cfg.chunk_size))).should_step_next = true) := by
  refine ⟨?_, ?_, ?_⟩
  · intro w1 g1 log pos
    unfold inner world.is_chunk_awake
    by_cases h1 : (w1.d_chunks (get_chunk_pos cfg (pos.div cfg.chunk_size))).should_step = true
    · by_cases h2 : (w1.d_pixels (get_pos cfg pos)).flags.is_updated = true
      · simp [h1, h2]
      · simp [h1, h2, rules.logged]
    · simp [h1]
  · obtain ⟨h1, h2⟩ := logged_sweep_related cfg r w.rotate_chunks g []
    unfold world.simulate
    simp only []
    rw [h1, h2]
    exact ⟨rfl, rfl⟩
  · have key := sweep_preserves
      (fun (s : world × (σ × List ivec2)) =>
        (∀ i, (s.1.d_chunks i).should_step = (w.d_chunks i).should_step_next) ∧
        (∀ pos ∈ s.2.2,
          (w.d_chunks (get_chunk_pos cfg (pos.div cfg.chunk_size))).should_step_next = true))
      cfg.world_size (driver_flip r.logged) (inner cfg r.logged) (w.rotate_chunks, (g, []))
      ⟨fun _ => rfl, fun _ hp => by simp at hp⟩
      (fun s hs => hs)
      (by
        rintro pos ⟨sw, sg, sl⟩ ⟨hs1, hs2⟩
        unfold inner
        simp only []
        split_ifs with hc
        · simp only [Bool.and_eq_true, world.is_chunk_awake] at hc
          refine ⟨fun i => ?_, fun q hq => ?_⟩
          · exact (hr sw pos sg i).trans (hs1 i)
          · simp only [rules.logged, List.mem_append, List.mem_singleton] at hq
            rcases hq with hq | hq
            · exact hs2 q hq
            · subst hq; rw [← hs1]; exact hc.1
        · exact ⟨hs1, hs2⟩)
    exact key.2

/-- Witness of C9: idle rules on the reference grid with every chunk woken. -/
theorem dispatch_iff_awake_and_fresh_witness :
    (∀ (w1 : world) (g1 : Unit) (log : List ivec2) (pos : ivec2),
      (inner config.reference rules.idle.logged pos (w1, (g1, log))).2.2 =
        if (w1.d_chunks (get_chunk_pos config.reference
              (pos.div config.reference.chunk_size))).should_step = true ∧
            (w1.d_pixels (get_pos config.reference pos)).flags.is_updated = false
        then log ++ [pos] else log) ∧
    ((world.asleep.wake_all_chunks.simulate config.reference rules.idle.logged ((), [])).1
        = (world.asleep.wake_all_chunks.simulate config.reference rules.idle ()).1 ∧
      (world.asleep.wake_all_chunks.simulate config.reference rules.idle.logged ((), [])).2.1
        = (world.asleep.wake_all_chunks.simulate config.reference rules.idle ()).2) ∧
    (∀ pos ∈ (world.asleep.wake_all_chunks.simulate config.reference rules.idle.logged
        ((), [])).2.2,
      (world.asleep.wake_all_chunks.d_chunks (get_chunk_pos config.reference
        (pos.div config.reference.chunk_size))).should_step_next = true) :=
  dispatch_iff_awake_and_fresh config.reference rules.idle (fun _ _ _ _ => rfl)
    world.asleep.wake_all_chunks ()

/-! ## Traversal order -/

theorem modify_at_of_valid (cfg : config) (w : world) (pos : ivec2) (f : pixel → pixel)
    (hp : valid cfg pos) :
    w.modify_at cfg pos f = some
      { d_pixels := Function.update w.d_pixels (get_pos cfg pos) (f (w.d_pixels (get_pos cfg pos))),
        d_chunks := w.d_chunks } := by
  simp only [world.modify_at, if_pos hp]

theorem at_mut_of_valid (cfg : config) (w : world) (pos : ivec2) (hp : valid cfg pos) :
    w.at_mut cfg pos = some (w.d_pixels (get_pos cfg pos)) := by
  simp only [world.at_mut, if_pos hp]

theorem scorched_centre_mono (cfg : config) (c : ivec2) (w0 : world) (u v : Rat) (w : world)
    (huv : u ≤ v) (h : scorched_centre cfg c w0 u w) : scorched_centre cfg c w0 v w :=
  ⟨h.1, h.2.1, h.2.2.1, le_trans h.2.2.2 huv⟩

theorem update_darken_type (f : Nat → pixel) (j i : Nat) :
    (Function.update f j (darken (f j)) i).type = (f i).type := by
  by_cases h : i = j
  · subst h; rw [Function.update_same]; rfl
  · rw [Function.update_noteq h]

theorem update_darken_red_nonneg (f : Nat → pixel) (j i : Nat) (h0 : 0 ≤ (f i).colour.r) :
    0 ≤ (Function.update f j (darken (f j)) i).colour.r := by
  by_cases h : i = j
  · subst h
    rw [Function.update_same]
    show 0 ≤ (f i).colour.r * (4 / 5)
    positivity
  · rw [Function.update_noteq h]; exact h0

theorem update_darken_red_le (f : Nat → pixel) (j i : Nat) (h0 : 0 ≤ (f i).colour.r) :
    (Function.update f j (darken (f j)) i).colour.r ≤ (f i).colour.r := by
  by_cases h : i = j
  · subst h
    rw [Function.update_same]
    show (f i).colour.r * (4 / 5) ≤ (f i).colour.r
    linarith
  · rw [Function.update_noteq h]

theorem update_darken_red_self (f : Nat → pixel) (i : Nat) :
    (Function.update f i (darken (f i)) i).colour.r = (f i).colour.r * (4 / 5) := by
  rw [Function.update_same]; rfl

/-- A scorch mark anywhere keeps the invariant. -/
theorem scorched_centre_darken (cfg : config) (c : ivec2) (w0 : world) (u : Rat) (w : world)
    (pos : ivec2) (h : scorched_centre cfg c w0 u w) :
    scorched_centre cfg c w0 u
      { d_pixels := Function.update w.d_pixels (get_pos cfg pos)
          (darken (w.d_pixels (get_pos cfg pos))),
        d_chunks := w.d_chunks } := by
  obtain ⟨h1, h2, h3, h4⟩ := h
  refine ⟨h1, ?_, ?_, ?_⟩
  · exact (update_darken_type w.d_pixels _ _).trans h2
  · exact update_darken_red_nonneg w.d_pixels _ _ h3
  · exact le_trans (update_darken_red_le w.d_pixels _ _ h3) h4

/-- A scorch mark on the centre lowers the bound. -/
theorem scorched_centre_darken_centre (cfg : config) (c : ivec2) (w0 : world) (u : Rat)
    (w : world) (h : scorched_centre cfg c w0 u w) :
    scorched_centre cfg c w0 (u * (4 / 5))
      { d_pixels := Function.update w.d_pixels (get_pos cfg c)
          (darken (w.d_pixels (get_pos cfg c))),
        d_chunks := w.d_chunks } := by
  obtain ⟨h1, h2, h3, h4⟩ := h
  refine ⟨h1, ?_, ?_, ?_⟩
  · exact (update_darken_type w.d_pixels _ _).trans h2
  · exact update_darken_red_nonneg w.d_pixels _ _ h3
  · show (Function.update w.d_pixels (get_pos cfg c) (darken (w.d_pixels (get_pos cfg c)))
      (get_pos cfg c)).colour.r ≤ u * (4 / 5)
    rw [update_darken_red_self]
    linarith

/-- Once a ray is blocked it only scorches. -/
theorem ray_loop_scorching (cfg : config) (phase_of : pixel → pixel_phase) (d : ray_draws)
    (a b : ivec2) (steps : Int) (c : ivec2) (w0 : world) (u : Rat) (todo : Nat) :
    ∀ (i : Nat) (w : world), scorched_centre cfg c w0 u w →
      ∃ w1, ray_loop cfg phase_of d a b steps todo i w [] true = some (w1, []) ∧
        scorched_centre cfg c w0 u w1 := by
  induction todo with
  | zero => intro i w h; exact ⟨w, rfl, h⟩
  | succ todo ih =>
    intro i w h
    rw [ray_loop]
    simp only []
    by_cases hv : valid cfg (a.add (((b.sub a).mul (i : Int)).div steps))
    · rw [if_neg (not_not.mpr hv)]
      simp only [if_true]
      by_cases hs : d.past_scorch i = true
      · rw [if_pos hs]; exact ⟨w, rfl, h⟩
      · rw [if_neg hs, at_mut_of_valid cfg w _ hv]
        simp only []
        by_cases hp : phase_of (w.d_pixels (get_pos cfg (a.add (((b.sub a).mul (i : Int)).div
            steps)))) = pixel_phase.solid
        · rw [if_pos hp, modify_at_of_valid cfg w _ darken hv]
          exact ih (i + 1) _ (scorched_centre_darken cfg c w0 u w _ h)
        · rw [if_neg hp]
          exact ih (i + 1) w h
    · rw [if_pos hv]; exact ⟨w, rfl, h⟩

theorem ivec2_first_step (a b : ivec2) (steps : Int) :
    a.add (((b.sub a).mul ((0 : Nat) : Int)).div steps) = a := by
  cases a with
  | mk ax ay => simp [ivec2.add, ivec2.sub, ivec2.mul, ivec2.div]

/-- A ray fired from a titanium centre with nothing checked: it is blocked at its first step
and never calls `set`. -/
theorem explosion_ray_titanium_centre (cfg : config) (phase_of : pixel → pixel_phase)
    (d : ray_draws) (c : ivec2) (hc : valid cfg c) (w0 : world) (u : Rat) (hu : 0 ≤ u)
    (w : world) (h : scorched_centre cfg c w0 u w) :
    ∃ w1, explosion_ray cfg phase_of d w [] c = some (w1, []) ∧
      scorched_centre cfg c w0 u w1 ∧
      (d.reach ≠ ⟨0, 0⟩ → scorched_centre cfg c w0 (u * (4 / 5)) w1) := by
  unfold explosion_ray
  simp only []
  generalize hsteps : max |c.x - (c.add d.reach).x| |c.y - (c.add d.reach).y| = steps
  cases htodo : steps.toNat with
  | zero =>
    refine ⟨w, rfl, h, fun hne => absurd ?_ hne⟩
    have h0 : steps ≤ 0 := by omega
    have hx : |c.x - (c.add d.reach).x| ≤ 0 := le_trans (le_max_left _ _) (hsteps ▸ h0)
    have hy : |c.y - (c.add d.reach).y| ≤ 0 := le_trans (le_max_right _ _) (hsteps ▸ h0)
    have hx2 := abs_nonpos_iff.mp hx
    have hy2 := abs_nonpos_iff.mp hy
    simp only [ivec2.add] at hx2 hy2
    cases hr : d.reach with
    | mk rx ry =>
      rw [hr] at hx2 hy2
      simp only at hx2 hy2
      simp only [ivec2.mk.injEq]
      constructor <;> omega
  | succ todo =>
    rw [ray_loop]
    rw [ivec2_first_step, if_neg (not_not.mpr hc), if_neg (by simp),
      if_pos (List.not_mem_nil c), at_mut_of_valid cfg w c hc]
    simp only []
    rw [if_pos (Or.inl h.2.1), modify_at_of_valid cfg w c darken hc]
    obtain ⟨w1, hw1, hinv⟩ := ray_loop_scorching cfg phase_of d c (c.add d.reach) steps c w0
      (u * (4 / 5)) todo (0 + 1) _ (scorched_centre_darken_centre cfg c w0 u w h)
    exact ⟨w1, hw1, scorched_centre_mono cfg c w0 _ u w1 (by linarith) hinv, fun _ => hinv⟩

/-- A run of rays from a titanium centre. -/
theorem rays_titanium_centre (cfg : config) (phase_of : pixel → pixel_phase)
    (draws : Nat → ray_draws) (c : ivec2) (hc : valid cfg c) (w0 : world) (u : Rat) (hu : 0 ≤ u)
    (js : List Nat) :
    ∀ (w : world), scorched_centre cfg c w0 u w →
      ∃ w1, js.foldl (fun st j => st.bind (fun s =>
          explosion_ray cfg phase_of (draws j) s.1 s.2 c)) (some (w, [])) = some (w1, []) ∧
        scorched_centre cfg c w0 u w1 := by
  induction js with
  | nil => intro w h; exact ⟨w, rfl, h⟩
  | cons j js ih =>
    intro w h
    obtain ⟨w1, hw1, hinv, _⟩ := explosion_ray_titanium_centre cfg phase_of (draws j) c hc w0 u hu w h
    rw [List.foldl_cons]
    simp only [Option.some_bind, hw1]
    exact ih w1 hinv

theorem explosion_side_titanium_centre (cfg : config) (phase_of : pixel → pixel_phase)
    (draws : Nat → ray_draws) (c : ivec2) (hc : valid cfg c) (w0 : world) (u : Rat) (hu : 0 ≤ u)
    (n : Nat) (w : world) (h : scorched_centre cfg c w0 u w) :
    ∃ w1, explosion_side cfg phase_of draws c n (some (w, [])) = some (w1, []) ∧
      scorched_centre cfg c w0 u w1 :=
  rays_titanium_centre cfg phase_of draws c hc w0 u hu (List.range n) w h

/-- The first loop when its first ray has somewhere to go: the centre gets a scorch mark. -/
theorem explosion_side_first_ray (cfg : config) (phase_of : pixel → pixel_phase)
    (draws : Nat → ray_draws) (c : ivec2) (hc : valid cfg c) (w0 : world) (u : Rat) (hu : 0 ≤ u)
    (n : Nat) (hreach : (draws 0).reach ≠ ⟨0, 0⟩) (w : world)
    (h : scorched_centre cfg c w0 u w) :
    ∃ w1, explosion_side cfg phase_of draws c (n + 1) (some (w, [])) = some (w1, []) ∧
      scorched_centre cfg c w0 (u * (4 / 5)) w1 := by
  unfold explosion_side
  rw [List.range_succ_eq_map, List.foldl_cons]
  obtain ⟨w1, hw1, _, hinv⟩ := explosion_ray_titanium_centre cfg phase_of (draws 0) c hc w0 u hu w h
  simp only [Option.some_bind, hw1]
  exact rays_titanium_centre cfg phase_of draws c hc w0 (u * (4 / 5)) (by positivity) _ w1
    (hinv hreach)

theorem ray_count_reference : ray_count explosion.reference = 150 + 1 := by decide!

/-- C4, evaluated on the reference grid: an explosion with the parameters `{40, 45, 10}` centred
on a lone titanium pixel at `(100, 100)` of a sleeping world, whose first ray has somewhere to go
(its reach is `(-53, 53)` in the program). Whatever the draws, the call succeeds, the centre
pixel is still titanium but its colour has been darkened, and no chunk has `should_step_next`:
the scorched cell lies in a chunk that was not woken. -/
theorem explosion_scorch_leaves_chunk_asleep (phase_of : pixel → pixel_phase)
    (draws : Nat → Nat → ray_draws) (hreach : (draws 0 0).reach ≠ ⟨0, 0⟩) :
    ∃ w1, apply_explosion config.reference phase_of draws titanium_world ⟨100, 100⟩
        explosion.reference = some w1 ∧
      w1.at_const config.reference ⟨100, 100⟩
        ≠ titanium_world.at_const config.reference ⟨100, 100⟩ ∧
      (w1.at_const config.reference ⟨100, 100⟩).type = pixel_type.titanium ∧
      (∀ i, (w1.d_chunks i).should_step_next = false) := by
  have hc : valid config.reference ⟨100, 100⟩ := by decide
  have h0 : scorched_centre config.reference ⟨100, 100⟩ titanium_world (1 / 2) titanium_world := by
    refine ⟨rfl, ?_, ?_, ?_⟩
    · simp [titanium_world, pixel.titanium, pixel.make]
    · simp [titanium_world, pixel.titanium, pixel.make]
    · simp [titanium_world, pixel.titanium, pixel.make]
  obtain ⟨w1, hw1, hi1⟩ := explosion_side_first_ray config.reference phase_of (draws 0)
    ⟨100, 100⟩ hc titanium_world (1 / 2) (by norm_num) 150 hreach titanium_world h0
  obtain ⟨w2, hw2, hi2⟩ := explosion_side_titanium_centre config.reference phase_of (draws 1)
    ⟨100, 100⟩ hc titanium_world _ (by norm_num) (150 + 1) w1 hi1
  obtain ⟨w3, hw3, hi3⟩ := explosion_side_titanium_centre config.reference phase_of (draws 2)
    ⟨100, 100⟩ hc titanium_world _ (by norm_num) (150 + 1) w2 hi2
  obtain ⟨w4, hw4, hi4⟩ := explosion_side_titanium_centre config.reference phase_of (draws 3)
    ⟨100, 100⟩ hc titanium_world _ (by norm_num) (150 + 1) w3 hi3
  refine ⟨w4, ?_, ?_, ?_, ?_⟩
  · unfold apply_explosion
    simp only []
    rw [ray_count_reference, hw1, hw2, hw3, hw4]
    rfl
  · obtain ⟨_, _, _, hle⟩ := hi4
    intro heq
    have hr := congrArg (fun p => p.colour.r) heq
    simp only [world.at_const, not_not.mpr hc, if_false] at hr
    rw [hr] at hle
    simp [titanium_world, pixel.titanium, pixel.make] at hle
    norm_num at hle
  · simp only [world.at_const, not_not.mpr hc, if_false]
    exact hi4.2.1
  · intro i
    rw [hi4.1]
    rfl

/-- Witness of the evaluation of C4: every ray reaches `(-53, 53)`, is never past the blast
limit, is past the scorch limit at once, and never leaves an ember. -/
theorem explosion_scorch_leaves_chunk_asleep_witness :
    ∃ w1, apply_explosion config.reference (fun _ => pixel_phase.solid)
        (fun _ _ => ⟨⟨-53, 53⟩, fun _ => false, fun _ => true, fun _ => false⟩)
        titanium_world ⟨100, 100⟩ explosion.reference = some w1 ∧
      w1.at_const config.reference ⟨100, 100⟩
        ≠ titanium_world.at_const config.reference ⟨100, 100⟩ ∧
      (w1.at_const config.reference ⟨100, 100⟩).type = pixel_type.titanium ∧
      (∀ i, (w1.d_chunks i).should_step_next = false) :=
  explosion_scorch_leaves_chunk_asleep (fun _ => pixel_phase.solid)
    (fun _ _ => ⟨⟨-53, 53⟩, fun _ => false, fun _ => true, fun _ => false⟩) (by decide)

/-! ## Reads and writes of pixels -/

/-- Distinct in-bounds positions have distinct indices in `d_pixels`. -/
theorem get_pos_injective (cfg : config) (p r : ivec2) (hp : valid cfg p) (hr : valid cfg r)
    (h : get_pos cfg p = get_pos cfg r) : p = r := by
  obtain ⟨hpx0, hpx1, hpy0, _⟩ := hp
  obtain ⟨hrx0, hrx1, hry0, _⟩ := hr
  have hN : (0 : Int) < (cfg.world_size : Int) := lt_of_le_of_lt hpx0 hpx1
  have hp0 : 0 ≤ p.x + (cfg.world_size : Int) * p.y :=
    add_nonneg hpx0 (mul_nonneg (le_of_lt hN) hpy0)
  have hr0 : 0 ≤ r.x + (cfg.world_size : Int) * r.y :=
    add_nonneg hrx0 (mul_nonneg (le_of_lt hN) hry0)
  have heq : p.x + (cfg.world_size : Int) * p.y = r.x + (cfg.world_size : Int) * r.y := by
    unfold get_pos at h
    have h2 := congrArg (fun n : Nat => (n : Int)) h
    simp only [Int.toNat_of_nonneg hp0, Int.toNat_of_nonneg hr0] at h2
    exact h2
  have hx : p.x = r.x := by
    have h3 := congrArg (fun z : Int => z % (cfg.world_size : Int)) heq
    simp only [Int.add_mul_emod_self_left] at h3
    rwa [Int.emod_eq_of_lt hpx0 hpx1, Int.emod_eq_of_lt hrx0 hrx1] at h3
  have hy : p.y = r.y := by
    rw [hx] at heq
    exact mul_left_cancel₀ (ne_of_gt hN) (add_left_cancel heq)
  cases p with
  | mk px py =>
    cases r with
    | mk rx ry =>
      simp only at hx hy
      rw [hx, hy]

theorem at_const_of_valid (cfg : config) (w : world) (pos : ivec2) (hp : valid cfg pos) :
    w.at_const cfg pos = w.d_pixels (get_pos cfg pos) := by
  simp only [world.at_const, not_not.mpr hp, if_false]

theorem at_const_of_not_valid (cfg : config) (w : world) (pos : ivec2) (hp : ¬ valid cfg pos) :
    w.at_const cfg pos = default_pixel := by
  simp only [world.at_const, hp, not_false_eq_true, if_true]

/-- C11: reads after a write. For an in-bounds `p`, `set(p, q)` succeeds and afterwards the read
`at(r)` returns `q` if `r = p`, the default air pixel if `r` is out of bounds, and otherwise what
it returned before the write; out-of-bounds reads return `pixel::air()` in every world. -/
theorem read_after_set (cfg : config) (w : world) (p r : ivec2) (q : pixel)
    (hp : valid cfg p) :
    (∃ w1, w.set cfg p q = some w1 ∧
      w1.at_const cfg r =
        if r = p then q else if ¬ valid cfg r then pixel.air else w.at_const cfg r) ∧
    (∀ (w2 : world) (r2 : ivec2), ¬ valid cfg r2 → w2.at_const cfg r2 = pixel.air) := by
  refine ⟨⟨_, set_of_valid cfg w p q hp, ?_⟩, fun w2 r2 h => at_const_of_not_valid cfg w2 r2 h⟩
  by_cases hrp : r = p
  · subst hrp
    rw [if_pos rfl, at_const_of_valid cfg _ r hp]
    exact Function.update_same _ _ _
  · rw [if_neg hrp]
    by_cases hr : valid cfg r
    · rw [if_neg (not_not.mpr hr), at_const_of_valid cfg _ r hr, at_const_of_valid cfg _ r hr]
      have hne : get_pos cfg r ≠ get_pos cfg p :=
        fun h => hrp (get_pos_injective cfg r p hr hp h)
      simp only [Function.update_noteq hne, wake_chunk_with_pixel_pixels]
    · rw [if_pos hr, at_const_of_not_valid cfg _ r hr]
      rfl

/-- Witness of C11 on the reference grid: after `set((16, 0), sand)` the read at `(15, 0)`. -/
theorem read_after_set_witness :
    (∃ w1, world.asleep.set config.reference ⟨16, 0⟩ pixel.sand = some w1 ∧
      w1.at_const config.reference ⟨15, 0⟩ =
        if (⟨15, 0⟩ : ivec2) = ⟨16, 0⟩ then pixel.sand
        else if ¬ valid config.reference ⟨15, 0⟩ then pixel.air
        else world.asleep.at_const config.reference ⟨15, 0⟩) ∧
    (∀ (w2 : world) (r2 : ivec2), ¬ valid config.reference r2 →
      w2.at_const config.reference r2 = pixel.air) :=
  read_after_set config.reference world.asleep ⟨16, 0⟩ ⟨15, 0⟩ pixel.sand (by decide)

/-- Exchanging two entries of a map twice gives the map back. -/
theorem update_swap_twice (f : Nat → pixel) (i j : Nat) :
    Function.update
      (Function.update (Function.update (Function.update f i (f j)) j (f i)) i
        (Function.update (Function.update f i (f j)) j (f i) j))
      j (Function.update (Function.update f i (f j)) j (f i) i) = f := by
  funext k
  by_cases hkj : k = j
  · subst hkj
    by_cases hki : k = i
    · subst hki; simp
    · simp [Function.update_noteq hki, Function.update_noteq (Ne.symm hki)]
  · by_cases hki : k = i
    · subst hki
      simp [Function.update_noteq hkj, Function.update_noteq (Ne.symm hkj)]
    · simp [Function.update_noteq hkj, Function.update_noteq hki]

/-- The pixel map after an in-bounds `swap`. -/
theorem swap_pixels (cfg : config) (w : world) (a b : ivec2) (ha : valid cfg a)
    (hb : valid cfg b) :
    ∃ w1, w.swap cfg a b = some (w1, b) ∧
      w1.d_pixels = Function.update (Function.update w.d_pixels (get_pos cfg a)
        (w.d_pixels (get_pos cfg b))) (get_pos cfg b) (w.d_pixels (get_pos cfg a)) := by
  refine ⟨_, swap_of_valid cfg w a b ha hb, ?_⟩
  simp only [wake_chunk_with_pixel_pixels]

/-- C12: for in-bounds `a` and `b` (equal or not), `swap(a, b)` succeeds and returns `b`, the
pixel read at `a` afterwards is the one read at `b` before and conversely, every other position
reads as before; and a second `swap(a, b)` succeeds and restores the pixel grid: every cell
holds the pixel it held before. -/
theorem swap_exchanges_and_is_involutive (cfg : config) (w : world) (a b : ivec2)
    (ha : valid cfg a) (hb : valid cfg b) :
    ∃ w1, w.swap cfg a b = some (w1, b) ∧
      w1.at_const cfg a = w.at_const cfg b ∧
      w1.at_const cfg b = w.at_const cfg a ∧
      (∀ r, r ≠ a → r ≠ b → w1.at_const cfg r = w.at_const cfg r) ∧
      ∃ w2, w1.swap cfg a b = some (w2, b) ∧
        w2.d_pixels = w.d_pixels ∧ (∀ r, w2.at_const cfg r = w.at_const cfg r) := by
  obtain ⟨w1, hs1, hp1⟩ := swap_pixels cfg w a b ha hb
  obtain ⟨w2, hs2, hp2⟩ := swap_pixels cfg w1 a b ha hb
  have hback : w2.d_pixels = w.d_pixels := by
    rw [hp2, hp1]
    exact update_swap_twice w.d_pixels (get_pos cfg a) (get_pos cfg b)
  refine ⟨w1, hs1, ?_, ?_, ?_, w2, hs2, hback, fun r => ?_⟩
  · rw [at_const_of_valid cfg _ a ha, at_const_of_valid cfg _ b hb, hp1]
    by_cases hab : get_pos cfg a = get_pos cfg b
    · rw [hab, Function.update_same]
    · rw [Function.update_noteq hab, Function.update_same]
  · rw [at_const_of_valid cfg _ a ha, at_const_of_valid cfg _ b hb, hp1, Function.update_same]
  · intro r hra hrb
    by_cases hr : valid cfg r
    · rw [at_const_of_valid cfg _ r hr, at_const_of_valid cfg _ r hr, hp1]
      have h1 : get_pos cfg r ≠ get_pos cfg a :=
        fun h => hra (get_pos_injective cfg r a hr ha h)
      have h2 : get_pos cfg r ≠ get_pos cfg b :=
        fun h => hrb (get_pos_injective cfg r b hr hb h)
      rw [Function.update_noteq h2, Function.update_noteq h1]
    · rw [at_const_of_not_valid cfg _ r hr, at_const_of_not_valid cfg _ r hr]
  · unfold world.at_const
    rw [hback]

/-- Witness of C12 on the reference grid: the positions `(15, 0)` and `(16, 0)`. -/
theorem swap_exchanges_and_is_involutive_witness :
    ∃ w1, world.asleep.swap config.reference ⟨15, 0⟩ ⟨16, 0⟩ = some (w1, ⟨16, 0⟩) ∧
      w1.at_const config.reference ⟨15, 0⟩ = world.asleep.at_const config.reference ⟨16, 0⟩ ∧
      w1.at_const config.reference ⟨16, 0⟩ = world.asleep.at_const config.reference ⟨15, 0⟩ ∧
      (∀ r, r ≠ ⟨15, 0⟩ → r ≠ ⟨16, 0⟩ →
        w1.at_const config.reference r = world.asleep.at_const config.reference r) ∧
      ∃ w2, w1.swap config.reference ⟨15, 0⟩ ⟨16, 0⟩ = some (w2, ⟨16, 0⟩) ∧
        w2.d_pixels = world.asleep.d_pixels ∧
        (∀ r, w2.at_const config.reference r = world.asleep.at_const config.reference r) :=
  swap_exchanges_and_is_involutive config.reference world.asleep ⟨15, 0⟩ ⟨16, 0⟩
    (by decide) (by decide)

/-! ## Explosions: what every ray preserves -/

/-- Whatever the draws, a ray keeps every property of the world that survives a scorch mark at
an in-bounds cell and a `set` of ember or air on an in-bounds cell that is not titanium; and the
ray runs to its end without a failed assertion. -/
theorem ray_loop_preserves (cfg : config) (phase_of : pixel → pixel_phase) (d : ray_draws)
    (a b : ivec2) (steps : Int) (P : world → Prop)
    (hdark : ∀ (w : world) (pos : ivec2) (w1 : world),
      w.modify_at cfg pos darken = some w1 → P w → P w1)
    (hset : ∀ (w : world) (pos : ivec2) (q : pixel) (w1 : world),
      (w.d_pixels (get_pos cfg pos)).type ≠ pixel_type.titanium →
      (q = pixel.ember ∨ q = pixel.air) → w.set cfg pos q = some w1 → P w → P w1)
    (todo : Nat) :
    ∀ (i : Nat) (w : world) (checked : List ivec2) (s : Bool), P w →
      ∃ w1 c1, ray_loop cfg phase_of d a b steps todo i w checked s = some (w1, c1) ∧ P w1 := by
  induction todo with
  | zero => intro i w checked s h; exact ⟨w, checked, rfl, h⟩
  | succ todo ih =>
    intro i w checked s h
    rw [ray_loop]
    by_cases hv : valid cfg (a.add (((b.sub a).mul (i : Int)).div steps))
    · rw [if_neg (not_not.mpr hv)]
      cases s with
      | true =>
        simp only [if_true]
        by_cases hs : d.past_scorch i = true
        · rw [if_pos hs]; exact ⟨w, checked, rfl, h⟩
        · rw [if_neg hs, at_mut_of_valid cfg w _ hv]
          simp only []
          by_cases hp : phase_of (w.d_pixels (get_pos cfg (a.add (((b.sub a).mul (i : Int)).div
              steps)))) = pixel_phase.solid
          · rw [if_pos hp, modify_at_of_valid cfg w _ darken hv]
            exact ih (i + 1) _ checked true
              (hdark w _ _ (modify_at_of_valid cfg w _ darken hv) h)
          · rw [if_neg hp]
            exact ih (i + 1) w checked true h
      | false =>
        simp only [Bool.false_eq_true, if_false]
        by_cases hm : a.add (((b.sub a).mul (i : Int)).div steps) ∈ checked
        · rw [if_neg (not_not.mpr hm)]
          exact ih (i + 1) w checked false h
        · rw [if_pos hm, at_mut_of_valid cfg w _ hv]
          simp only []
          by_cases ht : (w.d_pixels (get_pos cfg (a.add (((b.sub a).mul (i : Int)).div
              steps)))).type = pixel_type.titanium ∨ d.past_blast i = true
          · rw [if_pos ht, modify_at_of_valid cfg w _ darken hv]
            exact ih (i + 1) _ checked true
              (hdark w _ _ (modify_at_of_valid cfg w _ darken hv) h)
          · rw [if_neg ht, set_of_valid cfg w _ _ hv]
            refine ih (i + 1) _ _ false
              (hset w _ (if d.ember i = true then pixel.ember else pixel.air) _
                (fun hty => ht (Or.inl hty)) ?_ (set_of_valid cfg w _ _ hv) h)
            by_cases he : d.ember i = true
            · rw [if_pos he]; exact Or.inl rfl
            · rw [if_neg he]; exact Or.inr rfl
    · rw [if_pos hv]; exact ⟨w, checked, rfl, h⟩

theorem rays_preserve (cfg : config) (phase_of : pixel → pixel_phase) (draws : Nat → ray_draws)
    (pos : ivec2) (P : world → Prop)
    (hdark : ∀ (w : world) (pos : ivec2) (w1 : world),
      w.modify_at cfg pos darken = some w1 → P w → P w1)
    (hset : ∀ (w : world) (pos : ivec2) (q : pixel) (w1 : world),
      (w.d_pixels (get_pos cfg pos)).type ≠ pixel_type.titanium →
      (q = pixel.ember ∨ q = pixel.air) → w.set cfg pos q = some w1 → P w → P w1)
    (js : List Nat) :
    ∀ (w : world) (checked : List ivec2), P w →
      ∃ w1 c1, js.foldl (fun st j => st.bind (fun s =>
          explosion_ray cfg phase_of (draws j) s.1 s.2 pos)) (some (w, checked)) = some (w1, c1) ∧
        P w1 := by
  induction js with
  | nil => intro w checked h; exact ⟨w, checked, rfl, h⟩
  | cons j js ih =>
    intro w checked h
    obtain ⟨w1, c1, hw1, h1⟩ := ray_loop_preserves cfg phase_of (draws j) pos
      (pos.add (draws j).reach)
      (max |pos.x - (pos.add (draws j).reach).x| |pos.y - (pos.add (draws j).reach).y|) P
      hdark hset _ 0 w checked false h
    rw [List.foldl_cons]
    have hray : explosion_ray cfg phase_of (draws j) w checked pos = some (w1, c1) := hw1
    simp only [Option.some_bind, hray]
    exact ih w1 c1 h1

theorem apply_explosion_preserves (cfg : config) (phase_of : pixel → pixel_phase)
    (draws : Nat → Nat → ray_draws) (w : world) (pos : ivec2) (info : explosion)
    (P : world → Prop)
    (hdark : ∀ (w : world) (pos : ivec2) (w1 : world),
      w.modify_at cfg pos darken = some w1 → P w → P w1)
    (hset : ∀ (w : world) (pos : ivec2) (q : pixel) (w1 : world),
      (w.d_pixels (get_pos cfg pos)).type ≠ pixel_type.titanium →
      (q = pixel.ember ∨ q = pixel.air) → w.set cfg pos q = some w1 → P w → P w1)
    (h : P w) :
    ∃ w1, apply_explosion cfg phase_of draws w pos info = some w1 ∧ P w1 := by
  obtain ⟨w1, c1, e1, h1⟩ := rays_preserve cfg phase_of (draws 0) pos P hdark hset
    (List.range (ray_count info)) w [] h
  obtain ⟨w2, c2, e2, h2⟩ := rays_preserve cfg phase_of (draws 1) pos P hdark hset
    (List.range (ray_count info)) w1 c1 h1
  obtain ⟨w3, c3, e3, h3⟩ := rays_preserve cfg phase_of (draws 2) pos P hdark hset
    (List.range (ray_count info)) w2 c2 h2
  obtain ⟨w4, c4, e4, h4⟩ := rays_preserve cfg phase_of (draws 3) pos P hdark hset
    (List.range (ray_count info)) w3 c3 h3
  refine ⟨w4, ?_, h4⟩
  unfold apply_explosion explosion_side
  simp only []
  rw [e1, e2, e3, e4]
  rfl

theorem darken_iterate_type (k : Nat) (p : pixel) : (darken^[k] p).type = p.type := by
  induction k with
  | zero => rfl
  | succ k ih => rw [Function.iterate_succ_apply']; exact ih

/-- C13: `apply_explosion` never changes the material of a titanium pixel. Whatever the world,
the centre, the parameters and the draws, the call succeeds, and every position that reads
titanium before reads titanium after: the pixel there is the old one with its colour darkened
some number of times (possibly none) and nothing else changed. -/
theorem explosion_keeps_titanium (cfg : config) (phase_of : pixel → pixel_phase)
    (draws : Nat → Nat → ray_draws) (w : world) (pos : ivec2) (info : explosion) :
    ∃ w1, apply_explosion cfg phase_of draws w pos info = some w1 ∧
      ∀ r, (w.at_const cfg r).type = pixel_type.titanium →
        (w1.at_const cfg r).type = pixel_type.titanium ∧
        ∃ k, w1.at_const cfg r = darken^[k] (w.at_const cfg r) := by
  obtain ⟨w1, hw1, hkeep⟩ := apply_explosion_preserves cfg phase_of draws w pos info
    (fun v => ∀ i, (w.d_pixels i).type = pixel_type.titanium →
      ∃ k, v.d_pixels i = darken^[k] (w.d_pixels i))
    (by
      intro v p v1 hv1 hv i hi
      obtain ⟨k, hk⟩ := hv i hi
      unfold world.modify_at at hv1
      split_ifs at hv1
      injection hv1 with hv1
      subst hv1
      by_cases hidx : i = get_pos cfg p
      · subst hidx
        refine ⟨k + 1, ?_⟩
        simp only [Function.update_same]
        rw [hk, Function.iterate_succ_apply']
      · exact ⟨k, by simp only [Function.update_noteq hidx]; exact hk⟩)
    (by
      intro v p q v1 hty _ hv1 hv i hi
      obtain ⟨k, hk⟩ := hv i hi
      unfold world.set at hv1
      split_ifs at hv1
      injection hv1 with hv1
      subst hv1
      have hidx : i ≠ get_pos cfg p := by
        intro hidx
        subst hidx
        apply hty
        rw [hk, darken_iterate_type]
        exact hi
      exact ⟨k, by
        simp only [Function.update_noteq hidx, wake_chunk_with_pixel_pixels]; exact hk⟩)
    (fun i _ => ⟨0, rfl⟩)
  refine ⟨w1, hw1, fun r hr => ?_⟩
  by_cases hv : valid cfg r
  · rw [at_const_of_valid cfg _ r hv] at hr
    obtain ⟨k, hk⟩ := hkeep _ hr
    rw [at_const_of_valid cfg _ r hv, at_const_of_valid cfg _ r hv]
    exact ⟨by rw [hk, darken_iterate_type]; exact hr, k, hk⟩
  · rw [at_const_of_not_valid cfg _ r hv] at hr
    exact absurd hr (by decide)

/-! ## Explosions at the grid edge -/

/-- A ray whose step `i + k` is out of bounds does what its first `k` steps do: it has returned
by then. -/
theorem ray_loop_stops (cfg : config) (phase_of : pixel → pixel_phase) (d : ray_draws)
    (a b : ivec2) (steps : Int) (k : Nat) :
    ∀ (todo i : Nat) (w : world) (checked : List ivec2) (s : Bool), k < todo →
      ¬ valid cfg (a.add (((b.sub a).mul ((i + k : Nat) : Int)).div steps)) →
      ray_loop cfg phase_of d a b steps todo i w checked s
        = ray_loop cfg phase_of d a b steps k i w checked s := by
  induction k with
  | zero =>
    intro todo i w checked s hk hout
    obtain ⟨t, rfl⟩ : ∃ t, todo = t + 1 := ⟨todo - 1, by omega⟩
    rw [Nat.add_zero] at hout
    rw [ray_loop, ray_loop, if_pos hout]
  | succ k ih =>
    intro todo i w checked s hk hout
    obtain ⟨t, rfl⟩ : ∃ t, todo = t + 1 := ⟨todo - 1, by omega⟩
    have hkt : k < t := by omega
    have hout2 : ¬ valid cfg (a.add (((b.sub a).mul ((i + 1 + k : Nat) : Int)).div steps)) := by
      have e : i + 1 + k = i + (k + 1) := by omega
      rw [e]; exact hout
    rw [ray_loop, ray_loop]
    by_cases hv : valid cfg (a.add (((b.sub a).mul (i : Int)).div steps))
    · rw [if_neg (not_not.mpr hv), if_neg (not_not.mpr hv)]
      cases s with
      | true =>
        simp only [if_true]
        by_cases hs : d.past_scorch i = true
        · rw [if_pos hs, if_pos hs]
        · rw [if_neg hs, if_neg hs, at_mut_of_valid cfg w _ hv]
          simp only []
          by_cases hp : phase_of (w.d_pixels (get_pos cfg (a.add (((b.sub a).mul (i : Int)).div
              steps)))) = pixel_phase.solid
          · rw [if_pos hp, if_pos hp, modify_at_of_valid cfg w _ darken hv]
            exact ih t (i + 1) _ checked true hkt hout2
          · rw [if_neg hp, if_neg hp]
            exact ih t (i + 1) w checked true hkt hout2
      | false =>
        simp only [Bool.false_eq_true, if_false]
        by_cases hm : a.add (((b.sub a).mul (i : Int)).div steps) ∈ checked
        · rw [if_neg (not_not.mpr hm), if_neg (not_not.mpr hm)]
          exact ih t (i + 1) w checked false hkt hout2
        · rw [if_pos hm, if_pos hm, at_mut_of_valid cfg w _ hv]
          simp only []
          by_cases ht : (w.d_pixels (get_pos cfg (a.add (((b.sub a).mul (i : Int)).div
              steps)))).type = pixel_type.titanium ∨ d.past_blast i = true
          · rw [if_pos ht, if_pos ht, modify_at_of_valid cfg w _ darken hv]
            exact ih t (i + 1) _ checked true hkt hout2
          · rw [if_neg ht, if_neg ht, set_of_valid cfg w _ _ hv]
            exact ih t (i + 1) _ _ false hkt hout2
    · rw [if_pos hv, if_pos hv]

/-- With `max_radius + 3 * scorch >= 1` each of the four loops fires at least one ray. -/
theorem ray_count_pos (info : explosion) (hinfo : 1 ≤ info.max_radius + 3 * info.scorch) :
    0 < ray_count info := by
  unfold ray_count
  simp only []
  have hneg : ¬ (0 ≤ -(info.max_radius + 3 * info.scorch)) := by
    intro h; linarith
  have hfloor : (1 : Int) ≤ (info.max_radius + 3 * info.scorch).floor :=
    Rat.le_floor.mpr (by exact_mod_cast hinfo)
  have hceil : (-(info.max_radius + 3 * info.scorch)).ceil ≤ 0 := by
    have hlt : (-(info.max_radius + 3 * info.scorch)) < 0 := by linarith
    have hnum : (-(info.max_radius + 3 * info.scorch)).num < 0 := Rat.num_neg.mpr hlt
    unfold Rat.ceil
    split_ifs
    · omega
    · have hden : (0 : Int) < ((-(info.max_radius + 3 * info.scorch)).den : Int) := by
        exact_mod_cast (-(info.max_radius + 3 * info.scorch)).den_pos
      have := Int.ediv_neg' hnum hden
      omega
  unfold float_to_int
  rw [if_neg hneg]
  omega

/-- C14: explosions tolerate the grid edge. For every world, every centre (in bounds or not),
every draws and all parameters with `max_radius + 3 * scorch >= 1` (so that rays are fired and
every direction is defined), `apply_explosion` succeeds: no `set` and no mutable `at` fails its
bounds assertion. So does every single ray from any state; and a ray whose step `k` is out of
bounds does exactly what its first `k` steps do, so it has stopped there and modifies nothing
afterwards. -/
theorem explosion_never_out_of_bounds (cfg : config) (phase_of : pixel → pixel_phase)
    (draws : Nat → Nat → ray_draws) (w : world) (pos : ivec2) (info : explosion)
    (hinfo : 1 ≤ info.max_radius + 3 * info.scorch) :
    0 < ray_count info ∧
    (∃ w1, apply_explosion cfg phase_of draws w pos info = some w1) ∧
    (∀ (d : ray_draws) (v : world) (checked : List ivec2) (c : ivec2),
      ∃ v1 c1, explosion_ray cfg phase_of d v checked c = some (v1, c1)) ∧
    (∀ (d : ray_draws) (v : world) (checked : List ivec2) (c : ivec2) (k : Nat),
      k < (max |c.x - (c.add d.reach).x| |c.y - (c.add d.reach).y|).toNat →
      ¬ valid cfg (c.add ((((c.add d.reach).sub c).mul (k : Int)).div
        (max |c.x - (c.add d.reach).x| |c.y - (c.add d.reach).y|))) →
      explosion_ray cfg phase_of d v checked c =
        ray_loop cfg phase_of d c (c.add d.reach)
          (max |c.x - (c.add d.reach).x| |c.y - (c.add d.reach).y|) k 0 v checked false) := by
  refine ⟨ray_count_pos info hinfo, ?_, ?_, ?_⟩
  · obtain ⟨w1, hw1, _⟩ := apply_explosion_preserves cfg phase_of draws w pos info
      (fun _ => True) (fun _ _ _ _ _ => trivial) (fun _ _ _ _ _ _ _ _ => trivial) trivial
    exact ⟨w1, hw1⟩
  · intro d v checked c
    obtain ⟨v1, c1, h1, _⟩ := ray_loop_preserves cfg phase_of d c (c.add d.reach)
      (max |c.x - (c.add d.reach).x| |c.y - (c.add d.reach).y|) (fun _ => True)
      (fun _ _ _ _ _ => trivial) (fun _ _ _ _ _ _ _ _ => trivial)
      (max |c.x - (c.add d.reach).x| |c.y - (c.add d.reach).y|).toNat 0 v checked false trivial
    exact ⟨v1, c1, h1⟩
  · intro d v checked c k hk hout
    unfold explosion_ray
    exact ray_loop_stops cfg phase_of d c (c.add d.reach) _ k _ 0 v checked false hk
      (by rw [Nat.zero_add]; exact hout)

/-- Witness of C14: the explosion `{40, 45, 10}` fired from outside the reference grid, at
`(-3, 300)`. -/
theorem explosion_never_out_of_bounds_witness :
    0 < ray_count explosion.reference ∧
    (∃ w1, apply_explosion config.reference (fun _ => pixel_phase.solid)
      (fun _ _ => ⟨⟨-53, 53⟩, fun _ => false, fun _ => true, fun _ => false⟩)
      titanium_world ⟨-3, 300⟩ explosion.reference = some w1) ∧
    (∀ (d : ray_draws) (v : world) (checked : List ivec2) (c : ivec2),
      ∃ v1 c1, explosion_ray config.reference (fun _ => pixel_phase.solid) d v checked c
        = some (v1, c1)) ∧
    (∀ (d : ray_draws) (v : world) (checked : List ivec2) (c : ivec2) (k : Nat),
      k < (max |c.x - (c.add d.reach).x| |c.y - (c.add d.reach).y|).toNat →
      ¬ valid config.reference (c.add ((((c.add d.reach).sub c).mul (k : Int)).div
        (max |c.x - (c.add d.reach).x| |c.y - (c.add d.reach).y|))) →
      explosion_ray config.reference (fun _ => pixel_phase.solid) d v checked c =
        ray_loop config.reference (fun _ => pixel_phase.solid) d c (c.add d.reach)
          (max |c.x - (c.add d.reach).x| |c.y - (c.add d.reach).y|) k 0 v checked false) :=
  explosion_never_out_of_bounds config.reference (fun _ => pixel_phase.solid)
    (fun _ _ => ⟨⟨-53, 53⟩, fun _ => false, fun _ => true, fun _ => false⟩)
    titanium_world ⟨-3, 300⟩ explosion.reference (by decide!)

end sand
